import Mathlib

/-!
V3List.h: intrusive doubly-linked list (Verilator)

Shallow embedding of `src/src/V3List.h`.

* An owner object is identified by its (non-null) address, an `Obj`.
* The template parameter `T` is a pointer type: a value of type `T` is
  `Option Obj`, with `none` for `nullptr`.
* `V3List<T>` headers are passed by reference (`V3List<T>&`), so they live in a
  store indexed by a header identifier; passing the same identifier twice is
  aliasing.
* `V3ListEnt<T>` is embedded in its owner at a fixed offset.  The source comment
  "this must be an element inside of *newp" is the layout contract, under which
  `baseToListEnt(p, offset)` is the link field of owner `p`; the store `ents`
  maps an owner to its embedded link field, and `this` is `ents newp`.
* Statements are executed in source order on an explicit state.
-/

namespace V3ListModel

/-- Address of an owner object (never null). -/
abbrev Obj := Nat

/-- Identifier of a `V3List<T>` object passed by reference. -/
abbrev ListId := Nat

/-- The class `V3List<T>`: members `m_headp`, `m_tailp`, both `nullptr` initially. -/
structure V3List where
  m_headp : Option Obj := none
  m_tailp : Option Obj := none
deriving DecidableEq, Repr

/-- The class `V3ListEnt<T>`: members `m_nextp`, `m_prevp`, both `nullptr` initially. -/
structure V3ListEnt where
  m_nextp : Option Obj := none
  m_prevp : Option Obj := none
deriving DecidableEq, Repr

namespace V3List

/-- Source: `T begin() const { return m_headp; }`. -/
def begin (l : V3List) : Option Obj := l.m_headp

/-- Source: `T end() const { return nullptr; }` (the name `end` is reserved). -/
def end_ (_l : V3List) : Option Obj := none

/-- Source: `T rbegin() const { return m_tailp; }`. -/
def rbegin (l : V3List) : Option Obj := l.m_tailp

/-- Source: `T rend() const { return nullptr; }`. -/
def rend (_l : V3List) : Option Obj := none

/-- Source: `bool empty() const { return m_headp == nullptr; }`. -/
def empty (l : V3List) : Bool := decide (l.m_headp = none)

/-- Source: `void reset() { m_headp = nullptr; m_tailp = nullptr; }`. -/
def reset (l : V3List) : V3List :=
  let l1 : V3List := { l with m_headp := none }
  { l1 with m_tailp := none }

end V3List

namespace V3ListEnt

/-- Source: `T nextp() const { return m_nextp; }`. -/
def nextp (e : V3ListEnt) : Option Obj := e.m_nextp

/-- Source: `T prevp() const { return m_prevp; }`. -/
def prevp (e : V3ListEnt) : Option Obj := e.m_prevp

end V3ListEnt

/-- The memory the operations read and write: every header and every owner's
embedded link field. -/
structure State where
  lists : ListId → V3List
  ents : Obj → V3ListEnt

namespace State

/-- Write `listr.m_headp = v`. -/
def setHead (s : State) (listr : ListId) (v : Option Obj) : State :=
  { s with lists := fun i => if i = listr then { s.lists i with m_headp := v } else s.lists i }

/-- Write `listr.m_tailp = v`. -/
def setTail (s : State) (listr : ListId) (v : Option Obj) : State :=
  { s with lists := fun i => if i = listr then { s.lists i with m_tailp := v } else s.lists i }

/-- Write `baseToListEnt(p, offset)->m_nextp = v`. -/
def setNext (s : State) (p : Obj) (v : Option Obj) : State :=
  { s with ents := fun x => if x = p then { s.ents x with m_nextp := v } else s.ents x }

/-- Write `baseToListEnt(p, offset)->m_prevp = v`. -/
def setPrev (s : State) (p : Obj) (v : Option Obj) : State :=
  { s with ents := fun x => if x = p then { s.ents x with m_prevp := v } else s.ents x }

/-- Call `listr.reset()` on the header stored at `listr`. -/
def resetList (s : State) (listr : ListId) : State :=
  { s with lists := fun i => if i = listr then (s.lists i).reset else s.lists i }

end State

/-- Source `V3ListEnt::pushBack(V3List<T>& listr, T newp)`, lines 85-94. -/
def pushBack (s : State) (listr : ListId) (newp : Obj) : State :=
  -- m_nextp = nullptr;
  let s1 := s.setNext newp none
  -- if (!listr.m_headp) listr.m_headp = newp;
  let s2 := match (s1.lists listr).m_headp with
    | none => s1.setHead listr (some newp)
    | some _ => s1
  -- m_prevp = listr.m_tailp;
  let s3 := s2.setPrev newp (s2.lists listr).m_tailp
  -- if (m_prevp) baseToListEnt(m_prevp, offset)->m_nextp = newp;
  let s4 := match (s3.ents newp).m_prevp with
    | some p => s3.setNext p (some newp)
    | none => s3
  -- listr.m_tailp = newp;
  s4.setTail listr (some newp)

/-- Source `V3ListEnt::pushFront(V3List<T>& listr, T newp)`, lines 95-104. -/
def pushFront (s : State) (listr : ListId) (newp : Obj) : State :=
  -- m_nextp = listr.m_headp;
  let s1 := s.setNext newp (s.lists listr).m_headp
  -- if (m_nextp) baseToListEnt(m_nextp, offset)->m_prevp = newp;
  let s2 := match (s1.ents newp).m_nextp with
    | some n => s1.setPrev n (some newp)
    | none => s1
  -- listr.m_headp = newp;
  let s3 := s2.setHead listr (some newp)
  -- m_prevp = nullptr;
  let s4 := s3.setPrev newp none
  -- if (!listr.m_tailp) listr.m_tailp = newp;
  match (s4.lists listr).m_tailp with
  | none => s4.setTail listr (some newp)
  | some _ => s4

/-- Source `V3ListEnt::unlink(V3List<T>& listr, T oldp)`, lines 106-121. -/
def unlink (s : State) (listr : ListId) (oldp : Obj) : State :=
  -- if (m_nextp) { baseToListEnt(m_nextp, offset)->m_prevp = m_prevp; }
  -- else { listr.m_tailp = m_prevp; }
  let s1 := match (s.ents oldp).m_nextp with
    | some n => s.setPrev n (s.ents oldp).m_prevp
    | none => s.setTail listr (s.ents oldp).m_prevp
  -- if (m_prevp) { baseToListEnt(m_prevp, offset)->m_nextp = m_nextp; }
  -- else { listr.m_headp = m_nextp; }
  let s2 := match (s1.ents oldp).m_prevp with
    | some p => s1.setNext p (s1.ents oldp).m_nextp
    | none => s1.setHead listr (s1.ents oldp).m_nextp
  -- m_prevp = m_nextp = nullptr;
  let s3 := s2.setNext oldp none
  s3.setPrev oldp (s3.ents oldp).m_nextp

/-- What a call can stop with: the fatal error of a failed `UASSERT`, or a
write through a null pointer (undefined behaviour in the source). -/
inductive Fault where
  | fatal (msg : String)
  | nullDeref
deriving DecidableEq, Repr

/-- Modelled from the spec: the macro `UASSERT` is used by V3List.h but defined
elsewhere in the repository.  The spec calls it a checked precondition that
"fails loudly if violated" with "a fatal assertion-style error": the call goes
on when the condition holds and stops with the message otherwise. -/
def UASSERT (cond : Bool) (msg : String) : Except Fault Unit :=
  if cond then Except.ok () else Except.error (Fault.fatal msg)

/-- The message of the assertion in `moveAppend`. -/
def moveAppendMsg : String := "Must be head of list to use 'moveAppend'"

/-- Source `V3ListEnt::moveAppend(V3List<T>& oldListr, V3List<T>& newListr, T selfp)`,
lines 124-138.  The result pairs the outcome with the memory at the point where
the call stopped. -/
def moveAppend (s : State) (oldListr newListr : ListId) (selfp : Obj) :
    Except Fault Unit × State :=
  -- UASSERT(selfp == oldListr.m_headp, "...");
  match UASSERT (decide (some selfp = (s.lists oldListr).m_headp)) moveAppendMsg with
  | Except.error e => (Except.error e, s)
  | Except.ok _ =>
    -- const T headp = selfp;  const T tailp = oldListr.m_tailp;
    let headp : Option Obj := some selfp
    let tailp : Option Obj := (s.lists oldListr).m_tailp
    -- oldListr.reset();
    let s1 := s.resetList oldListr
    -- if (newListr.empty()) {
    if (s1.lists newListr).empty then
      -- newListr.m_headp = headp;  newListr.m_tailp = tailp;
      let s2 := s1.setHead newListr headp
      (Except.ok (), s2.setTail newListr tailp)
    else
      -- baseToListEnt(newListr.m_tailp, offset)->m_nextp = headp;
      match (s1.lists newListr).m_tailp with
      | none => (Except.error Fault.nullDeref, s1)
      | some t =>
        let s2 := s1.setNext t headp
        -- m_prevp = newListr.m_tailp;
        let s3 := s2.setPrev selfp (s2.lists newListr).m_tailp
        -- newListr.m_tailp = tailp;
        (Except.ok (), s3.setTail newListr tailp)

/-- Forward traversal `for (p = begin(); p != end(); p = p->nextp())`, started at
`p`, visiting at most `fuel` objects; `none` when the fuel runs out. -/
def forward (s : State) : Nat → Option Obj → Option (List Obj)
  | _, none => some []
  | 0, some _ => none
  | fuel + 1, some x => (forward s fuel (s.ents x).nextp).map (fun r => x :: r)

/-- Backward traversal `for (p = rbegin(); p != rend(); p = p->prevp())`. -/
def backward (s : State) : Nat → Option Obj → Option (List Obj)
  | _, none => some []
  | 0, some _ => none
  | fuel + 1, some x => (backward s fuel (s.ents x).prevp).map (fun r => x :: r)

/-- The links of the segment `L`, whose first element has predecessor `p` and
whose last element has successor `n`. -/
def Chain (e : Obj → V3ListEnt) : Option Obj → List Obj → Option Obj → Prop
  | _, [], _ => True
  | p, [x], n => (e x).m_prevp = p ∧ (e x).m_nextp = n
  | p, x :: y :: r, n =>
      (e x).m_prevp = p ∧ (e x).m_nextp = some y ∧ Chain e (some x) (y :: r) n

/-- The header `h` is well-formed with member sequence `L`: no duplicates,
head and tail are the first and last element (both `nullptr` for the empty
sequence), and each member's next and prev are its successor and predecessor
in `L` (`nullptr` at the ends). -/
def WF (s : State) (h : ListId) (L : List Obj) : Prop :=
  L.Nodup ∧ (s.lists h).m_headp = L.head? ∧ (s.lists h).m_tailp = L.getLast? ∧
  ∀ i, ∀ hi : i < L.length,
    (s.ents (L.get ⟨i, hi⟩)).m_nextp = L.get? (i + 1) ∧
    (s.ents (L.get ⟨i, hi⟩)).m_prevp = (if i = 0 then none else L.get? (i - 1))

/-- One call on a fixed header: `pushBack`, `pushFront` or `unlink` of an object. -/
inductive Op where
  | pushBack (x : Obj)
  | pushFront (x : Obj)
  | unlink (x : Obj)
deriving DecidableEq, Repr

/-- Execute one call on the header `h`. -/
def Op.exec (s : State) (h : ListId) : Op → State
  | Op.pushBack x => V3ListModel.pushBack s h x
  | Op.pushFront x => V3ListModel.pushFront s h x
  | Op.unlink x => V3ListModel.unlink s h x

/-- Execute a sequence of calls on the header `h`, first call first. -/
def run (s : State) (h : ListId) : List Op → State
  | [] => s
  | o :: os => run (o.exec s h) h os

/-- The member sequence a call is meant to produce from the member sequence `L`. -/
def Op.track (L : List Obj) : Op → List Obj
  | Op.pushBack x => L ++ [x]
  | Op.pushFront x => x :: L
  | Op.unlink x => L.erase x

/-- The member sequence a sequence of calls is meant to produce from `L`. -/
def track (L : List Obj) : List Op → List Obj
  | [] => L
  | o :: os => track (o.track L) os

/-- The documented caller contract of one call when the members are `L`: push
only an object that is not a member, unlink only a member. -/
def Op.allowed (L : List Obj) : Op → Prop
  | Op.pushBack x => x ∉ L
  | Op.pushFront x => x ∉ L
  | Op.unlink x => x ∈ L

instance (L : List Obj) (o : Op) : Decidable (o.allowed L) := by
  cases o <;> unfold Op.allowed <;> infer_instance

/-- Every call of the sequence respects the caller contract at the time it is made. -/
def InContract (L : List Obj) : List Op → Prop
  | [] => True
  | o :: os => o.allowed L ∧ InContract (o.track L) os

instance (L : List Obj) (ops : List Op) : Decidable (InContract L ops) := by
  induction ops generalizing L with
  | nil => unfold InContract; infer_instance
  | cons o os ih =>
    unfold InContract
    have := ih (o.track L)
    infer_instance

/-- Whether `x` has been pushed and not unlinked since, after the calls `ops`,
when `b` says whether it was so before them. -/
def liveAfter (b : Bool) (ops : List Op) (x : Obj) : Bool :=
  match ops with
  | [] => b
  | Op.pushBack y :: os => liveAfter (b || decide (y = x)) os x
  | Op.pushFront y :: os => liveAfter (b || decide (y = x)) os x
  | Op.unlink y :: os => liveAfter (b && !decide (y = x)) os x

/-- The object `x` was pushed by one of the calls `ops` and not unlinked since. -/
def pushedNotUnlinked (ops : List Op) (x : Obj) : Bool := liveAfter false ops x

instance (s : State) (h : ListId) (L : List Obj) : Decidable (WF s h L) := by
  unfold WF; infer_instance

/-- The memory after the default constructors `V3List() = default` and
`V3ListEnt() = default`: every member pointer is `nullptr`. -/
def emptyState : State := { lists := fun _ => {}, ents := fun _ => {} }

/-- The mirror image of a state: head and tail swapped in every header, next
and prev swapped in every object. -/
def mirror (s : State) : State :=
  { lists := fun i => { m_headp := (s.lists i).m_tailp, m_tailp := (s.lists i).m_headp },
    ents := fun x => { m_nextp := (s.ents x).m_prevp, m_prevp := (s.ents x).m_nextp } }

/-- Subtraction of two `size_t` values of `w` bits: it wraps modulo `2 ^ w`. -/
def sizeSub (w a b : Nat) : Nat := (a % 2 ^ w + 2 ^ w - b % 2 ^ w) % 2 ^ w

/-- Source, lines 88, 98, 109 and 126:
`const size_t offset = (size_t)(uint8_t*)(this) - (size_t)(uint8_t*)(newp);`
with `thisAddr` the address of the link field and `basep` the address of its owner. -/
def offsetOf (w thisAddr basep : Nat) : Nat := sizeSub w thisAddr basep

/-- Source `V3ListEnt::baseToListEnt(void* newbasep, size_t offset)`, lines 66-71:
`return (V3ListEnt*)(((uint8_t*)newbasep) + offset);`, an address of `w` bits. -/
def baseToListEnt (w newbasep offset : Nat) : Nat := (newbasep + offset) % 2 ^ w

/-- Which of two headers a call is made on. -/
inductive Which where
  | fst
  | snd
deriving DecidableEq, Repr

/-- The header identifier selected among the two headers `a` and `b`. -/
def sel (a b : ListId) : Which → ListId
  | Which.fst => a
  | Which.snd => b

/-- The member sequences of the two headers. -/
structure Members where
  fst : List Obj
  snd : List Obj
deriving DecidableEq, Repr

/-- The member sequence of the selected header. -/
def Members.get (m : Members) : Which → List Obj
  | Which.fst => m.fst
  | Which.snd => m.snd

/-- Replace the member sequence of the selected header. -/
def Members.set (m : Members) (w : Which) (L : List Obj) : Members :=
  match w with
  | Which.fst => { m with fst := L }
  | Which.snd => { m with snd := L }

/-- One call on one of two headers. -/
inductive Call where
  | pushBack (w : Which) (x : Obj)
  | pushFront (w : Which) (x : Obj)
  | unlink (w : Which) (x : Obj)
  | reset (w : Which)
  | moveAppend (src dst : Which) (x : Obj)
deriving DecidableEq, Repr

/-- Execute one call, the two headers being `a` and `b`. -/
def Call.exec (a b : ListId) (s : State) : Call → State
  | Call.pushBack w x => V3ListModel.pushBack s (sel a b w) x
  | Call.pushFront w x => V3ListModel.pushFront s (sel a b w) x
  | Call.unlink w x => V3ListModel.unlink s (sel a b w) x
  | Call.reset w => s.resetList (sel a b w)
  | Call.moveAppend src dst x => (V3ListModel.moveAppend s (sel a b src) (sel a b dst) x).2

/-- The member sequences a call is meant to produce. -/
def Call.track (m : Members) : Call → Members
  | Call.pushBack w x => m.set w (m.get w ++ [x])
  | Call.pushFront w x => m.set w (x :: m.get w)
  | Call.unlink w x => m.set w ((m.get w).erase x)
  | Call.reset w => m.set w []
  | Call.moveAppend src dst _ =>
      if src = dst then m else (m.set dst (m.get dst ++ m.get src)).set src []

/-- Whether a call returned without error. -/
def succeeded : Except Fault Unit → Bool
  | Except.ok _ => true
  | Except.error _ => false

/-- The caller contract with reset allowed: push only an object that is in
neither list, unlink an object only from the header it is a member of, reset
at will, and moveAppend only when the call succeeds. -/
def Call.allowed (a b : ListId) (s : State) (m : Members) : Call → Prop
  | Call.pushBack _ x => x ∉ m.fst ∧ x ∉ m.snd
  | Call.pushFront _ x => x ∉ m.fst ∧ x ∉ m.snd
  | Call.unlink w x => x ∈ m.get w
  | Call.reset _ => True
  | Call.moveAppend src dst x =>
      succeeded (V3ListModel.moveAppend s (sel a b src) (sel a b dst) x).1 = true

instance (a b : ListId) (s : State) (m : Members) (c : Call) :
    Decidable (c.allowed a b s m) := by
  cases c <;> unfold Call.allowed <;> infer_instance

/-- The transitions of the link-role state machine: push only an object that is
in neither list, unlink an object only from the header it is a member of,
moveAppend only with self the head of the source; reset is not a transition. -/
def Call.inRole (a b : ListId) (s : State) (m : Members) : Call → Prop
  | Call.pushBack _ x => x ∉ m.fst ∧ x ∉ m.snd
  | Call.pushFront _ x => x ∉ m.fst ∧ x ∉ m.snd
  | Call.unlink w x => x ∈ m.get w
  | Call.reset _ => False
  | Call.moveAppend src _ x => (s.lists (sel a b src)).m_headp = some x

instance (a b : ListId) (s : State) (m : Members) (c : Call) :
    Decidable (c.inRole a b s m) := by
  cases c <;> unfold Call.inRole <;> infer_instance

/-- Execute a sequence of calls on the two headers, first call first. -/
def runCalls (a b : ListId) (s : State) : List Call → State
  | [] => s
  | c :: cs => runCalls a b (c.exec a b s) cs

/-- The member sequences a sequence of calls is meant to produce. -/
def trackCalls (m : Members) : List Call → Members
  | [] => m
  | c :: cs => trackCalls (c.track m) cs

/-- Every call of the sequence is allowed at the time it is made. -/
def AllAllowed (a b : ListId) (s : State) (m : Members) : List Call → Prop
  | [] => True
  | c :: cs => c.allowed a b s m ∧ AllAllowed a b (c.exec a b s) (c.track m) cs

instance (a b : ListId) (s : State) (m : Members) (cs : List Call) :
    Decidable (AllAllowed a b s m cs) := by
  induction cs generalizing s m with
  | nil => unfold AllAllowed; infer_instance
  | cons c cs ih =>
    unfold AllAllowed
    have := ih (c.exec a b s) (c.track m)
    infer_instance

/-- Every call of the sequence is a transition of the link-role state machine
at the time it is made. -/
def AllInRole (a b : ListId) (s : State) (m : Members) : List Call → Prop
  | [] => True
  | c :: cs => c.inRole a b s m ∧ AllInRole a b (c.exec a b s) (c.track m) cs

instance (a b : ListId) (s : State) (m : Members) (cs : List Call) :
    Decidable (AllInRole a b s m cs) := by
  induction cs generalizing s m with
  | nil => unfold AllInRole; infer_instance
  | cons c cs ih =>
    unfold AllInRole
    have := ih (c.exec a b s) (c.track m)
    infer_instance

/-- Two distinct headers `h` and `k` are well-formed with member sequences `L`
and `K`, and no object is a member of both. -/
def TwoLists (s : State) (h : ListId) (L : List Obj) (k : ListId) (K : List Obj) : Prop :=
  h ≠ k ∧ WF s h L ∧ WF s k K ∧ ∀ y, y ∈ L → y ∉ K

/-- Every object that is a member of neither sequence has next = prev = nullptr. -/
def Unlinked (s : State) (L K : List Obj) : Prop :=
  ∀ y, y ∉ L → y ∉ K → (s.ents y).m_nextp = none ∧ (s.ents y).m_prevp = none

/-! ## Segments of links -/

theorem chain_cons (e : Obj → V3ListEnt) (p n : Option Obj) (x : Obj) (L : List Obj) :
    Chain e p (x :: L) n ↔
      (e x).m_prevp = p ∧ (e x).m_nextp = L.head?.or n ∧ Chain e (some x) L n := by
  cases L with
  | nil => simp [Chain]
  | cons y r => simp [Chain]

theorem chain_append (e : Obj → V3ListEnt) (A B : List Obj) (p n : Option Obj) :
    Chain e p (A ++ B) n ↔
      Chain e p A (B.head?.or n) ∧ Chain e (A.getLast?.or p) B n := by
  induction A generalizing p with
  | nil => simp [Chain]
  | cons x A ih =>
    rw [List.cons_append, chain_cons, chain_cons, ih]
    cases A with
    | nil => simp [Chain]; tauto
    | cons y r =>
      have hl : ∀ q : Option Obj, (y :: r).getLast?.or q = (y :: r).getLast? := by
        intro q
        rw [List.getLast?_eq_getLast _ (List.cons_ne_nil y r)]
        rfl
      simp only [List.getLast?_cons_cons, hl, List.cons_append, List.head?_cons,
        Option.or_some, and_assoc]

theorem chain_congr (e e' : Obj → V3ListEnt) (L : List Obj) (p n : Option Obj)
    (h : ∀ x ∈ L, (e' x).m_nextp = (e x).m_nextp ∧ (e' x).m_prevp = (e x).m_prevp) :
    Chain e' p L n ↔ Chain e p L n := by
  induction L generalizing p with
  | nil => simp [Chain]
  | cons x L ih =>
    rw [chain_cons, chain_cons, (h x (List.mem_cons_self _ _)).1,
      (h x (List.mem_cons_self _ _)).2,
      ih (some x) (fun y hy => h y (List.mem_cons_of_mem _ hy))]

/-- Rewriting only the next field of the last element of a segment changes
only the successor of the segment. -/
theorem chain_set_last (e e' : Obj → V3ListEnt) (L : List Obj) (p n v : Option Obj)
    (hnd : L.Nodup) (hc : Chain e p L n)
    (hp : ∀ y ∈ L, (e' y).m_prevp = (e y).m_prevp)
    (hn : ∀ y ∈ L, (e' y).m_nextp = if L.getLast? = some y then v else (e y).m_nextp) :
    Chain e' p L v := by
  induction L generalizing p with
  | nil => simp [Chain]
  | cons x L ih =>
    rw [chain_cons] at hc ⊢
    obtain ⟨h1, h2, h3⟩ := hc
    have hx := hn x (List.mem_cons_self _ _)
    have hnd' := List.nodup_cons.mp hnd
    cases L with
    | nil =>
      refine ⟨by rw [hp x (List.mem_cons_self _ _), h1], ?_, by simp [Chain]⟩
      simpa using hx
    | cons y r =>
      refine ⟨by rw [hp x (List.mem_cons_self _ _), h1], ?_, ?_⟩
      · rw [List.getLast?_cons_cons] at hx
        have hne : (y :: r).getLast? ≠ some x := by
          intro hl
          exact hnd'.1 (List.mem_of_getLast?_eq_some hl)
        rw [if_neg hne] at hx
        rw [hx, h2]
        rfl
      · apply ih (some x) hnd'.2 h3
        · intro z hz
          exact hp z (List.mem_cons_of_mem _ hz)
        · intro z hz
          have := hn z (List.mem_cons_of_mem _ hz)
          rwa [List.getLast?_cons_cons] at this

/-- Rewriting only the prev field of the first element of a segment changes
only the predecessor of the segment. -/
theorem chain_set_head (e e' : Obj → V3ListEnt) (L : List Obj) (p n v : Option Obj)
    (hnd : L.Nodup) (hc : Chain e p L n)
    (hn : ∀ y ∈ L, (e' y).m_nextp = (e y).m_nextp)
    (hp : ∀ y ∈ L, (e' y).m_prevp = if L.head? = some y then v else (e y).m_prevp) :
    Chain e' v L n := by
  cases L with
  | nil => simp [Chain]
  | cons x L =>
    rw [chain_cons] at hc ⊢
    obtain ⟨_, h2, h3⟩ := hc
    have hnd' := List.nodup_cons.mp hnd
    refine ⟨by simpa using hp x (List.mem_cons_self _ _), ?_, ?_⟩
    · rw [hn x (List.mem_cons_self _ _), h2]
    · rw [chain_congr e e' L (some x) n]
      · exact h3
      · intro z hz
        refine ⟨hn z (List.mem_cons_of_mem _ hz), ?_⟩
        have := hp z (List.mem_cons_of_mem _ hz)
        have hne : x ≠ z := fun hxz => hnd'.1 (hxz ▸ hz)
        simpa [hne] using this

/-! ## Traversals of a segment -/

theorem forward_chain (s : State) (L : List Obj) (p : Option Obj) (fuel : Nat)
    (hc : Chain s.ents p L none) (hf : L.length ≤ fuel) :
    forward s fuel L.head? = some L := by
  induction L generalizing p fuel with
  | nil => cases fuel <;> simp [forward]
  | cons x L ih =>
    rw [chain_cons] at hc
    cases fuel with
    | zero => simp at hf
    | succ f =>
      have hf' : L.length ≤ f := by simpa using hf
      simp only [List.head?_cons, forward, V3ListEnt.nextp]
      rw [hc.2.1, Option.or_none, ih (some x) f hc.2.2 hf']
      rfl

theorem backward_chain (s : State) (L : List Obj) (n : Option Obj) (fuel : Nat)
    (hc : Chain s.ents none L n) (hf : L.length ≤ fuel) :
    backward s fuel L.getLast? = some L.reverse := by
  induction L using List.reverseRecOn generalizing n fuel with
  | nil => cases fuel <;> simp [backward]
  | append_singleton A x ih =>
    rw [chain_append] at hc
    obtain ⟨hA, hx⟩ := hc
    cases fuel with
    | zero => simp at hf
    | succ f =>
      have hf' : A.length ≤ f := by simpa using hf
      simp only [Chain, Option.or_none] at hx
      simp only [List.getLast?_concat, backward, V3ListEnt.prevp]
      rw [hx.1, ih _ f hA hf']
      simp

theorem chain_iff_index (e : Obj → V3ListEnt) (L : List Obj) (p n : Option Obj) :
    Chain e p L n ↔ ∀ i, ∀ hi : i < L.length,
      (e (L.get ⟨i, hi⟩)).m_nextp = (L.get? (i + 1)).or n ∧
      (e (L.get ⟨i, hi⟩)).m_prevp = (if i = 0 then p else L.get? (i - 1)) := by
  induction L generalizing p with
  | nil => simp [Chain]
  | cons x L ih =>
    rw [chain_cons, ih]
    constructor
    · rintro ⟨hp, hn, hr⟩ i hi
      cases i with
      | zero =>
        refine ⟨?_, by simpa using hp⟩
        cases L <;> simpa using hn
      | succ j =>
        have hj : j < L.length := by simpa using hi
        have := hr j hj
        refine ⟨by simpa using this.1, ?_⟩
        cases j with
        | zero => simpa using this.2
        | succ k => simpa using this.2
    · intro h
      refine ⟨by simpa using (h 0 (by simp)).2, ?_, ?_⟩
      · have := (h 0 (by simp)).1
        cases L <;> simpa using this
      · intro j hj
        have := h (j + 1) (by simpa using hj)
        refine ⟨by simpa using this.1, ?_⟩
        cases j with
        | zero => simpa using this.2
        | succ k => simpa using this.2

theorem wf_iff_chain (s : State) (h : ListId) (L : List Obj) :
    WF s h L ↔ L.Nodup ∧ (s.lists h).m_headp = L.head? ∧ (s.lists h).m_tailp = L.getLast? ∧
      Chain s.ents none L none := by
  unfold WF
  rw [chain_iff_index]
  simp only [Option.or_none]

/-! ## Reading a field after a write -/

namespace State

@[simp]
theorem setNext_next (s : State) (p : Obj) (v : Option Obj) (y : Obj) :
    ((s.setNext p v).ents y).m_nextp = if y = p then v else (s.ents y).m_nextp := by
  unfold setNext; dsimp only; split_ifs <;> rfl

@[simp]
theorem setNext_prev (s : State) (p : Obj) (v : Option Obj) (y : Obj) :
    ((s.setNext p v).ents y).m_prevp = (s.ents y).m_prevp := by
  unfold setNext; dsimp only; split_ifs <;> rfl

@[simp]
theorem setNext_lists (s : State) (p : Obj) (v : Option Obj) :
    (s.setNext p v).lists = s.lists := rfl

@[simp]
theorem setPrev_prev (s : State) (p : Obj) (v : Option Obj) (y : Obj) :
    ((s.setPrev p v).ents y).m_prevp = if y = p then v else (s.ents y).m_prevp := by
  unfold setPrev; dsimp only; split_ifs <;> rfl

@[simp]
theorem setPrev_next (s : State) (p : Obj) (v : Option Obj) (y : Obj) :
    ((s.setPrev p v).ents y).m_nextp = (s.ents y).m_nextp := by
  unfold setPrev; dsimp only; split_ifs <;> rfl

@[simp]
theorem setPrev_lists (s : State) (p : Obj) (v : Option Obj) :
    (s.setPrev p v).lists = s.lists := rfl

@[simp]
theorem setHead_head (s : State) (l : ListId) (v : Option Obj) (i : ListId) :
    ((s.setHead l v).lists i).m_headp = if i = l then v else (s.lists i).m_headp := by
  unfold setHead; dsimp only; split_ifs <;> rfl

@[simp]
theorem setHead_tail (s : State) (l : ListId) (v : Option Obj) (i : ListId) :
    ((s.setHead l v).lists i).m_tailp = (s.lists i).m_tailp := by
  unfold setHead; dsimp only; split_ifs <;> rfl

@[simp]
theorem setHead_ents (s : State) (l : ListId) (v : Option Obj) :
    (s.setHead l v).ents = s.ents := rfl

@[simp]
theorem setTail_tail (s : State) (l : ListId) (v : Option Obj) (i : ListId) :
    ((s.setTail l v).lists i).m_tailp = if i = l then v else (s.lists i).m_tailp := by
  unfold setTail; dsimp only; split_ifs <;> rfl

@[simp]
theorem setTail_head (s : State) (l : ListId) (v : Option Obj) (i : ListId) :
    ((s.setTail l v).lists i).m_headp = (s.lists i).m_headp := by
  unfold setTail; dsimp only; split_ifs <;> rfl

@[simp]
theorem setTail_ents (s : State) (l : ListId) (v : Option Obj) :
    (s.setTail l v).ents = s.ents := rfl

@[simp]
theorem resetList_head (s : State) (l i : ListId) :
    ((s.resetList l).lists i).m_headp = if i = l then none else (s.lists i).m_headp := by
  unfold resetList; dsimp only; split_ifs <;> rfl

@[simp]
theorem resetList_tail (s : State) (l i : ListId) :
    ((s.resetList l).lists i).m_tailp = if i = l then none else (s.lists i).m_tailp := by
  unfold resetList; dsimp only; split_ifs <;> rfl

@[simp]
theorem resetList_ents (s : State) (l : ListId) :
    (s.resetList l).ents = s.ents := rfl

end State

/-! ## Effect of each operation, field by field, in every state -/

theorem pushBack_head (s : State) (h : ListId) (x : Obj) (i : ListId) :
    ((pushBack s h x).lists i).m_headp =
      if i = h then (s.lists h).m_headp.or (some x) else (s.lists i).m_headp := by
  unfold pushBack
  cases hh : (s.lists h).m_headp <;> cases ht : (s.lists h).m_tailp <;>
    simp [hh, ht] <;> split_ifs with h1 <;> first | rfl | (subst h1; simp [hh])

theorem pushBack_tail (s : State) (h : ListId) (x : Obj) (i : ListId) :
    ((pushBack s h x).lists i).m_tailp =
      if i = h then some x else (s.lists i).m_tailp := by
  unfold pushBack
  cases hh : (s.lists h).m_headp <;> cases ht : (s.lists h).m_tailp <;> simp [hh, ht]

theorem pushBack_next (s : State) (h : ListId) (x y : Obj) :
    ((pushBack s h x).ents y).m_nextp =
      if (s.lists h).m_tailp = some y then some x
      else if y = x then none else (s.ents y).m_nextp := by
  unfold pushBack
  cases hh : (s.lists h).m_headp <;> cases ht : (s.lists h).m_tailp <;>
    simp [hh, ht, eq_comm]

theorem pushBack_prev (s : State) (h : ListId) (x y : Obj) :
    ((pushBack s h x).ents y).m_prevp =
      if y = x then (s.lists h).m_tailp else (s.ents y).m_prevp := by
  unfold pushBack
  cases hh : (s.lists h).m_headp <;> cases ht : (s.lists h).m_tailp <;> simp [hh, ht]

theorem pushFront_head (s : State) (h : ListId) (x : Obj) (i : ListId) :
    ((pushFront s h x).lists i).m_headp =
      if i = h then some x else (s.lists i).m_headp := by
  unfold pushFront
  cases hh : (s.lists h).m_headp <;> cases ht : (s.lists h).m_tailp <;> simp [hh, ht]

theorem pushFront_tail (s : State) (h : ListId) (x : Obj) (i : ListId) :
    ((pushFront s h x).lists i).m_tailp =
      if i = h then (s.lists h).m_tailp.or (some x) else (s.lists i).m_tailp := by
  unfold pushFront
  cases hh : (s.lists h).m_headp <;> cases ht : (s.lists h).m_tailp <;>
    simp [hh, ht] <;> split_ifs with h1 <;> first | rfl | (subst h1; simp [ht])

theorem pushFront_next (s : State) (h : ListId) (x y : Obj) :
    ((pushFront s h x).ents y).m_nextp =
      if y = x then (s.lists h).m_headp else (s.ents y).m_nextp := by
  unfold pushFront
  cases hh : (s.lists h).m_headp <;> cases ht : (s.lists h).m_tailp <;> simp [hh, ht]

theorem pushFront_prev (s : State) (h : ListId) (x y : Obj) :
    ((pushFront s h x).ents y).m_prevp =
      if y = x then none
      else if (s.lists h).m_headp = some y then some x else (s.ents y).m_prevp := by
  unfold pushFront
  cases hh : (s.lists h).m_headp <;> cases ht : (s.lists h).m_tailp <;>
    simp [hh, ht, eq_comm]

theorem unlink_head (s : State) (h : ListId) (x : Obj) (i : ListId) :
    ((unlink s h x).lists i).m_headp =
      if i = h ∧ (s.ents x).m_prevp = none then (s.ents x).m_nextp
      else (s.lists i).m_headp := by
  unfold unlink
  cases hn : (s.ents x).m_nextp <;> cases hp : (s.ents x).m_prevp <;> simp [hn, hp]

theorem unlink_tail (s : State) (h : ListId) (x : Obj) (i : ListId) :
    ((unlink s h x).lists i).m_tailp =
      if i = h ∧ (s.ents x).m_nextp = none then (s.ents x).m_prevp
      else (s.lists i).m_tailp := by
  unfold unlink
  cases hn : (s.ents x).m_nextp <;> cases hp : (s.ents x).m_prevp <;> simp [hn, hp]

theorem unlink_next (s : State) (h : ListId) (x y : Obj) :
    ((unlink s h x).ents y).m_nextp =
      if y = x then none
      else if (s.ents x).m_prevp = some y then (s.ents x).m_nextp
      else (s.ents y).m_nextp := by
  unfold unlink
  cases hn : (s.ents x).m_nextp <;> cases hp : (s.ents x).m_prevp <;>
    simp [hn, hp, eq_comm]

theorem unlink_prev (s : State) (h : ListId) (x y : Obj) :
    ((unlink s h x).ents y).m_prevp =
      if y = x then none
      else if (s.ents x).m_nextp = some y then (s.ents x).m_prevp
      else (s.ents y).m_prevp := by
  unfold unlink
  cases hn : (s.ents x).m_nextp <;> cases hp : (s.ents x).m_prevp <;>
    simp [hn, hp, eq_comm]

/-! ## Well-formedness is preserved -/

theorem pushBack_wf (s : State) (h : ListId) (L : List Obj) (x : Obj)
    (hwf : WF s h L) (hx : x ∉ L) : WF (pushBack s h x) h (L ++ [x]) := by
  rw [wf_iff_chain] at hwf ⊢
  obtain ⟨hnd, hh, ht, hc⟩ := hwf
  have hlast : L.getLast? ≠ some x := fun hl => hx (List.mem_of_getLast?_eq_some hl)
  refine ⟨?_, ?_, ?_, ?_⟩
  · rw [List.nodup_append]
    refine ⟨hnd, List.nodup_singleton x, ?_⟩
    intro a ha ha'
    rw [List.mem_singleton] at ha'
    exact hx (ha' ▸ ha)
  · rw [pushBack_head, if_pos rfl, hh, List.head?_append]
    rfl
  · rw [pushBack_tail, if_pos rfl, List.getLast?_concat]
  · rw [chain_append]
    constructor
    · apply chain_set_last s.ents _ L none none _ hnd hc
      · intro y hy
        have hyx : y ≠ x := fun e => hx (e ▸ hy)
        rw [pushBack_prev, if_neg hyx]
      · intro y hy
        have hyx : y ≠ x := fun e => hx (e ▸ hy)
        rw [pushBack_next, ht, if_neg hyx]
        rfl
    · simp only [Chain, Option.or_none]
      rw [pushBack_prev, if_pos rfl, pushBack_next, ht, if_neg hlast, if_pos rfl]
      exact ⟨rfl, rfl⟩

theorem pushFront_wf (s : State) (h : ListId) (L : List Obj) (x : Obj)
    (hwf : WF s h L) (hx : x ∉ L) : WF (pushFront s h x) h (x :: L) := by
  rw [wf_iff_chain] at hwf ⊢
  obtain ⟨hnd, hh, ht, hc⟩ := hwf
  have hhead : L.head? ≠ some x := fun hl => hx (List.mem_of_mem_head? hl)
  refine ⟨List.nodup_cons.mpr ⟨hx, hnd⟩, ?_, ?_, ?_⟩
  · rw [pushFront_head, if_pos rfl]
    rfl
  · rw [pushFront_tail, if_pos rfl, ht]
    cases L with
    | nil => rfl
    | cons y r =>
      rw [List.getLast?_cons_cons, List.getLast?_eq_getLast _ (List.cons_ne_nil y r)]
      rfl
  · rw [chain_cons]
    refine ⟨?_, ?_, ?_⟩
    · rw [pushFront_prev, if_pos rfl]
    · rw [pushFront_next, if_pos rfl, hh, Option.or_none]
    · apply chain_set_head s.ents _ L none none _ hnd hc
      · intro y hy
        have hyx : y ≠ x := fun e => hx (e ▸ hy)
        rw [pushFront_next, if_neg hyx]
      · intro y hy
        have hyx : y ≠ x := fun e => hx (e ▸ hy)
        rw [pushFront_prev, hh, if_neg hyx]

theorem unlink_wf_split (s : State) (h : ListId) (A B : List Obj) (x : Obj)
    (hwf : WF s h (A ++ x :: B)) : WF (unlink s h x) h (A ++ B) := by
  rw [wf_iff_chain] at hwf ⊢
  obtain ⟨hnd, hh, ht, hc⟩ := hwf
  rw [chain_append, chain_cons] at hc
  simp only [Option.or_none, List.head?_cons, Option.or_some] at hc
  obtain ⟨hcA, hpx, hnx, hcB⟩ := hc
  rw [List.nodup_append] at hnd
  obtain ⟨hndA, hndxB, hdisj⟩ := hnd
  obtain ⟨hxB, hndB⟩ := List.nodup_cons.mp hndxB
  have hxA : x ∉ A := fun hm => hdisj hm (List.mem_cons_self _ _)
  have hAB : ∀ y, y ∈ A → y ∉ B := fun y hy hy' => hdisj hy (List.mem_cons_of_mem _ hy')
  refine ⟨?_, ?_, ?_, ?_⟩
  · rw [List.nodup_append]
    exact ⟨hndA, hndB, fun y hy hy' => hAB y hy hy'⟩
  · rw [unlink_head, hpx, hnx, hh]
    cases A with
    | nil => simp
    | cons a r =>
      have : (a :: r).getLast? ≠ none := by
        rw [List.getLast?_eq_getLast _ (List.cons_ne_nil a r)]
        exact Option.some_ne_none _
      simp [this]
  · rw [unlink_tail, hpx, hnx, ht]
    cases B with
    | nil => simp
    | cons b r =>
      simp only [List.head?_cons, and_false, if_false, reduceCtorEq]
      rw [List.getLast?_append, List.getLast?_append, List.getLast?_cons_cons]
  · rw [chain_append]
    simp only [Option.or_none]
    constructor
    · apply chain_set_last s.ents _ A none (some x) _ hndA hcA
      · intro y hy
        have hyx : y ≠ x := fun e => hxA (e ▸ hy)
        have hyB : B.head? ≠ some y := fun e => hAB y hy (List.mem_of_mem_head? e)
        rw [unlink_prev, if_neg hyx, hnx, if_neg hyB]
      · intro y hy
        have hyx : y ≠ x := fun e => hxA (e ▸ hy)
        rw [unlink_next, if_neg hyx, hpx, hnx]
    · apply chain_set_head s.ents _ B (some x) none _ hndB hcB
      · intro y hy
        have hyx : y ≠ x := fun e => hxB (e ▸ hy)
        have hyA : A.getLast? ≠ some y :=
          fun e => hAB y (List.mem_of_getLast?_eq_some e) hy
        rw [unlink_next, if_neg hyx, hpx, if_neg hyA]
      · intro y hy
        have hyx : y ≠ x := fun e => hxB (e ▸ hy)
        rw [unlink_prev, if_neg hyx, hnx, hpx]

theorem erase_split (A B : List Obj) (x : Obj) (hx : x ∉ A) :
    (A ++ x :: B).erase x = A ++ B := by
  rw [List.erase_append_right _ hx, List.erase_cons_head]

theorem unlink_wf (s : State) (h : ListId) (L : List Obj) (x : Obj)
    (hwf : WF s h L) (hx : x ∈ L) : WF (unlink s h x) h (L.erase x) := by
  obtain ⟨A, B, rfl⟩ := List.mem_iff_append.mp hx
  have hnd : (A ++ x :: B).Nodup := hwf.1
  have hxA : x ∉ A := by
    rw [List.nodup_append] at hnd
    exact fun hm => hnd.2.2 hm (List.mem_cons_self _ _)
  rw [erase_split A B x hxA]
  exact unlink_wf_split s h A B x hwf

/-! ## Sequences of calls -/

theorem run_wf (s : State) (h : ListId) (L : List Obj) (ops : List Op)
    (hwf : WF s h L) (hc : InContract L ops) : WF (run s h ops) h (track L ops) := by
  induction ops generalizing s L with
  | nil => exact hwf
  | cons o os ih =>
    obtain ⟨ha, hr⟩ := hc
    cases o with
    | pushBack x => exact ih _ _ (pushBack_wf s h L x hwf ha) hr
    | pushFront x => exact ih _ _ (pushFront_wf s h L x hwf ha) hr
    | unlink x => exact ih _ _ (unlink_wf s h L x hwf ha) hr

theorem track_mem (L : List Obj) (ops : List Op) (x : Obj)
    (hnd : L.Nodup) (hc : InContract L ops) :
    x ∈ track L ops ↔ liveAfter (decide (x ∈ L)) ops x = true := by
  induction ops generalizing L with
  | nil => simp [track, liveAfter]
  | cons o os ih =>
    obtain ⟨ha, hr⟩ := hc
    cases o with
    | pushBack y =>
      have hnd' : (L ++ [y]).Nodup := by
        rw [List.nodup_append]
        refine ⟨hnd, List.nodup_singleton y, ?_⟩
        intro a h1 h2
        rw [List.mem_singleton] at h2
        exact ha (h2 ▸ h1)
      have := ih (L ++ [y]) hnd' hr
      simp only [track, Op.track, liveAfter]
      rw [this]
      by_cases hxy : y = x
      · subst hxy; simp
      · have : ¬ x = y := fun e => hxy e.symm
        simp [hxy, this]
    | pushFront y =>
      have hnd' : (y :: L).Nodup := List.nodup_cons.mpr ⟨ha, hnd⟩
      have := ih (y :: L) hnd' hr
      simp only [track, Op.track, liveAfter]
      rw [this]
      by_cases hxy : y = x
      · subst hxy; simp
      · have : ¬ x = y := fun e => hxy e.symm
        simp [hxy, this]
    | unlink y =>
      have hnd' : (L.erase y).Nodup := hnd.erase y
      have := ih (L.erase y) hnd' hr
      simp only [track, Op.track, liveAfter]
      rw [this]
      by_cases hxy : y = x
      · subst hxy; simp [hnd.mem_erase_iff]
      · have : ¬ x = y := fun e => hxy e.symm
        simp [hxy, this, hnd.mem_erase_iff]

/-! ## The four ways a call of moveAppend can go -/

theorem moveAppend_fatal (s : State) (A B : ListId) (x : Obj)
    (hx : (s.lists A).m_headp ≠ some x) :
    moveAppend s A B x = (Except.error (Fault.fatal moveAppendMsg), s) := by
  have : ¬ (some x = (s.lists A).m_headp) := fun e => hx e.symm
  simp [moveAppend, UASSERT, this]

theorem moveAppend_into_empty (s : State) (A B : ListId) (x : Obj)
    (hx : (s.lists A).m_headp = some x) (hB : A = B ∨ (s.lists B).m_headp = none) :
    moveAppend s A B x =
      (Except.ok (), ((s.resetList A).setHead B (some x)).setTail B (s.lists A).m_tailp) := by
  have he : ((s.resetList A).lists B).empty = true := by
    unfold V3List.empty
    rw [State.resetList_head]
    rcases hB with hB | hB
    · simp [hB]
    · simp [hB]
  simp [moveAppend, UASSERT, hx, he]

theorem moveAppend_onto (s : State) (A B : ListId) (x t : Obj)
    (hx : (s.lists A).m_headp = some x) (hAB : A ≠ B)
    (hB : (s.lists B).m_headp ≠ none) (ht : (s.lists B).m_tailp = some t) :
    moveAppend s A B x =
      (Except.ok (),
        (((s.resetList A).setNext t (some x)).setPrev x (some t)).setTail B
          (s.lists A).m_tailp) := by
  have hBA : ¬ B = A := fun e => hAB e.symm
  have he : ((s.resetList A).lists B).empty = false := by
    unfold V3List.empty
    rw [State.resetList_head]
    simp [hBA, hB]
  have ht' : ((s.resetList A).lists B).m_tailp = some t := by
    rw [State.resetList_tail]
    simp [hBA, ht]
  simp [moveAppend, UASSERT, hx, he, hBA, ht]

theorem moveAppend_null (s : State) (A B : ListId) (x : Obj)
    (hx : (s.lists A).m_headp = some x) (hAB : A ≠ B)
    (hB : (s.lists B).m_headp ≠ none) (ht : (s.lists B).m_tailp = none) :
    moveAppend s A B x = (Except.error Fault.nullDeref, s.resetList A) := by
  have hBA : ¬ B = A := fun e => hAB e.symm
  have he : ((s.resetList A).lists B).empty = false := by
    unfold V3List.empty
    rw [State.resetList_head]
    simp [hBA, hB]
  have ht' : ((s.resetList A).lists B).m_tailp = none := by
    rw [State.resetList_tail]
    simp [hBA, ht]
  simp [moveAppend, UASSERT, hx, he, hBA, ht]

theorem wf_nil_iff (s : State) (h : ListId) :
    WF s h [] ↔ (s.lists h).m_headp = none ∧ (s.lists h).m_tailp = none := by
  rw [wf_iff_chain]
  simp [Chain]

theorem onto_state_wf (s : State) (A B : ListId) (x t : Obj) (LA LB : List Obj)
    (hAB : A ≠ B) (hA : WF s A (x :: LA)) (hB : WF s B LB)
    (ht : LB.getLast? = some t) (hdisj : ∀ y, y ∈ x :: LA → y ∉ LB) :
    WF ((((s.resetList A).setNext t (some x)).setPrev x (some t)).setTail B
        (s.lists A).m_tailp) B (LB ++ x :: LA) ∧
    WF ((((s.resetList A).setNext t (some x)).setPrev x (some t)).setTail B
        (s.lists A).m_tailp) A [] := by
  have hBA : ¬ B = A := fun e => hAB e.symm
  constructor
  · rw [wf_iff_chain] at hA hB ⊢
    obtain ⟨hndA, _, htA, hcA⟩ := hA
    obtain ⟨hndB, hhB, _, hcB⟩ := hB
    have htB : t ∈ LB := List.mem_of_getLast?_eq_some ht
    refine ⟨?_, ?_, ?_, ?_⟩
    · rw [List.nodup_append]
      exact ⟨hndB, hndA, fun y hy hy' => hdisj y hy' hy⟩
    · simp only [State.setTail_head, State.setPrev_lists, State.setNext_lists,
        State.resetList_head, if_neg hBA]
      rw [hhB, List.head?_append]
      cases LB with
      | nil => simp at ht
      | cons b r => rfl
    · simp only [State.setTail_tail, if_pos]
      rw [htA, List.getLast?_append,
        List.getLast?_eq_getLast _ (List.cons_ne_nil x LA)]
      rfl
    · rw [chain_append]
      simp only [List.head?_cons, Option.or_some, ht]
      constructor
      · apply chain_set_last s.ents _ LB none none _ hndB hcB
        · intro y hy
          have hyx : y ≠ x := fun e => hdisj x (List.mem_cons_self _ _) (e ▸ hy)
          simp [hyx]
        · intro y hy
          simp [ht, eq_comm]
      · apply chain_set_head s.ents _ (x :: LA) none none _ hndA hcA
        · intro y hy
          have hyt : y ≠ t := fun e => hdisj y hy (e ▸ htB)
          simp [hyt]
        · intro y hy
          simp [eq_comm]
  · rw [wf_nil_iff]
    simp [hAB]

theorem into_empty_state_wf (s : State) (A B : ListId) (x : Obj) (LA : List Obj)
    (hAB : A ≠ B) (hA : WF s A (x :: LA)) :
    WF (((s.resetList A).setHead B (some x)).setTail B (s.lists A).m_tailp) B (x :: LA) ∧
    WF (((s.resetList A).setHead B (some x)).setTail B (s.lists A).m_tailp) A [] := by
  constructor
  · rw [wf_iff_chain] at hA ⊢
    obtain ⟨hndA, _, htA, hcA⟩ := hA
    refine ⟨hndA, by simp, by simp [htA], ?_⟩
    simpa using hcA
  · rw [wf_nil_iff]
    simp [hAB]

/-! ## The claims -/

/-- C1: every sequence of pushBack/pushFront/unlink calls that respects the
caller contract, applied to an initially empty header, leaves the header
well-formed with the tracked member sequence; with enough fuel the forward
traversal from head returns that sequence, the backward traversal from tail
returns its reverse, and the objects visited are exactly those pushed and not
unlinked since. -/
theorem ops_keep_wellformed (s0 : State) (h : ListId) (ops : List Op)
    (hhead : (s0.lists h).m_headp = none) (htail : (s0.lists h).m_tailp = none)
    (hc : InContract [] ops) :
    WF (run s0 h ops) h (track [] ops) ∧
    (∀ fuel, (track [] ops).length ≤ fuel →
      forward (run s0 h ops) fuel ((run s0 h ops).lists h).begin = some (track [] ops) ∧
      backward (run s0 h ops) fuel ((run s0 h ops).lists h).rbegin
        = some (track [] ops).reverse) ∧
    (∀ x, x ∈ track [] ops ↔ pushedNotUnlinked ops x = true) := by
  have hwf0 : WF s0 h [] := (wf_nil_iff s0 h).mpr ⟨hhead, htail⟩
  have hwf := run_wf s0 h [] ops hwf0 hc
  refine ⟨hwf, ?_, ?_⟩
  · intro fuel hf
    obtain ⟨_, hh, ht, hch⟩ := (wf_iff_chain _ _ _).mp hwf
    constructor
    · unfold V3List.begin
      rw [hh]
      exact forward_chain _ _ none fuel hch hf
    · unfold V3List.rbegin
      rw [ht]
      exact backward_chain _ _ none fuel hch hf
  · intro x
    have := track_mem [] ops x List.nodup_nil hc
    simpa [pushedNotUnlinked] using this

theorem ops_keep_wellformed_witness :
    InContract [] [Op.pushBack 1, Op.pushFront 2, Op.pushBack 3, Op.unlink 1] ∧
    WF (run emptyState 0 [Op.pushBack 1, Op.pushFront 2, Op.pushBack 3, Op.unlink 1]) 0
      [2, 3] :=
  ⟨by decide,
   (ops_keep_wellformed emptyState 0
      [Op.pushBack 1, Op.pushFront 2, Op.pushBack 3, Op.unlink 1] rfl rfl (by decide)).1⟩

/-- C2: for a well-formed header with member sequence L and an object self that
is not a member (whatever its link fields hold), pushBack yields a well-formed
header with member sequence L ++ [self]; tail = self, self.next = nullptr,
self.prev = the old tail, and head = self exactly when L was empty. -/
theorem pushBack_appends (s : State) (h : ListId) (L : List Obj) (self : Obj)
    (hwf : WF s h L) (hself : self ∉ L) :
    WF (pushBack s h self) h (L ++ [self]) ∧
    ((pushBack s h self).lists h).m_tailp = some self ∧
    ((pushBack s h self).ents self).m_nextp = none ∧
    ((pushBack s h self).ents self).m_prevp = (s.lists h).m_tailp ∧
    (((pushBack s h self).lists h).m_headp = some self ↔ L = []) := by
  have hlast : (s.lists h).m_tailp ≠ some self := by
    rw [hwf.2.2.1]
    exact fun hl => hself (List.mem_of_getLast?_eq_some hl)
  refine ⟨pushBack_wf s h L self hwf hself, ?_, ?_, ?_, ?_⟩
  · rw [pushBack_tail, if_pos rfl]
  · rw [pushBack_next, if_neg hlast, if_pos rfl]
  · rw [pushBack_prev, if_pos rfl]
  · rw [pushBack_head, if_pos rfl, hwf.2.1]
    cases L with
    | nil => simp
    | cons a r =>
      have : a ≠ self := fun e => hself (e ▸ List.mem_cons_self _ _)
      simp [this]

theorem pushBack_appends_witness :
    WF (pushBack emptyState 0 5) 0 [5] ∧ 7 ∉ [5] ∧
    WF (pushBack (pushBack emptyState 0 5) 0 7) 0 ([5] ++ [7]) :=
  ⟨by decide, by decide,
   (pushBack_appends (pushBack emptyState 0 5) 0 [5] 7 (by decide) (by decide)).1⟩

/-- C3: for a well-formed header with member sequence L and an object self that
is not a member (whatever its link fields hold), pushFront yields a well-formed
header with member sequence self :: L; head = self, self.prev = nullptr,
self.next = the old head, the old head's prev = self, and tail = self exactly
when L was empty. -/
theorem pushFront_prepends (s : State) (h : ListId) (L : List Obj) (self : Obj)
    (hwf : WF s h L) (hself : self ∉ L) :
    WF (pushFront s h self) h (self :: L) ∧
    ((pushFront s h self).lists h).m_headp = some self ∧
    ((pushFront s h self).ents self).m_prevp = none ∧
    ((pushFront s h self).ents self).m_nextp = (s.lists h).m_headp ∧
    (∀ old, (s.lists h).m_headp = some old →
      ((pushFront s h self).ents old).m_prevp = some self) ∧
    (((pushFront s h self).lists h).m_tailp = some self ↔ L = []) := by
  refine ⟨pushFront_wf s h L self hwf hself, ?_, ?_, ?_, ?_, ?_⟩
  · rw [pushFront_head, if_pos rfl]
  · rw [pushFront_prev, if_pos rfl]
  · rw [pushFront_next, if_pos rfl]
  · intro old hold
    have hmem : old ∈ L := by
      have := hwf.2.1
      rw [hold] at this
      exact List.mem_of_mem_head? this.symm
    have hne : old ≠ self := fun e => hself (e ▸ hmem)
    rw [pushFront_prev, if_neg hne, if_pos hold]
  · rw [pushFront_tail, if_pos rfl, hwf.2.2.1]
    cases L with
    | nil => simp
    | cons a r =>
      have hl : (a :: r).getLast? = some ((a :: r).getLast (List.cons_ne_nil a r)) :=
        List.getLast?_eq_getLast _ _
      have hm : (a :: r).getLast (List.cons_ne_nil a r) ∈ a :: r := List.getLast_mem _
      have : (a :: r).getLast (List.cons_ne_nil a r) ≠ self := fun e => hself (e ▸ hm)
      rw [hl]
      simp [this]

theorem pushFront_prepends_witness :
    WF (pushBack emptyState 0 5) 0 [5] ∧ 7 ∉ [5] ∧
    WF (pushFront (pushBack emptyState 0 5) 0 7) 0 [7, 5] :=
  ⟨by decide, by decide,
   (pushFront_prepends (pushBack emptyState 0 5) 0 [5] 7 (by decide) (by decide)).1⟩

/-- C4: for a well-formed header with member sequence L and a member self
(first, last, interior or only element), unlink yields a well-formed header
whose member sequence is L without self, the other members keeping their
relative order; head and tail are the new first and last element, both nullptr
when self was the only member. -/
theorem unlink_removes (s : State) (h : ListId) (L : List Obj) (self : Obj)
    (hwf : WF s h L) (hself : self ∈ L) :
    WF (unlink s h self) h (L.filter (fun y => y != self)) ∧
    (∀ A B, L = A ++ self :: B → WF (unlink s h self) h (A ++ B)) ∧
    ((unlink s h self).lists h).m_headp = (L.filter (fun y => y != self)).head? ∧
    ((unlink s h self).lists h).m_tailp = (L.filter (fun y => y != self)).getLast? ∧
    (L = [self] → ((unlink s h self).lists h).m_headp = none ∧
      ((unlink s h self).lists h).m_tailp = none) := by
  have hw := unlink_wf s h L self hwf hself
  rw [hwf.1.erase_eq_filter] at hw
  refine ⟨hw, ?_, hw.2.1, hw.2.2.1, ?_⟩
  · intro A B hL
    subst hL
    exact unlink_wf_split s h A B self hwf
  · intro hL
    subst hL
    have h1 := hw.2.1
    have h2 := hw.2.2.1
    simp at h1 h2
    exact ⟨h1, h2⟩

theorem unlink_removes_witness :
    WF (run emptyState 0 [Op.pushBack 1, Op.pushBack 2, Op.pushBack 3]) 0 [1, 2, 3] ∧
    2 ∈ [1, 2, 3] ∧
    WF (unlink (run emptyState 0 [Op.pushBack 1, Op.pushBack 2, Op.pushBack 3]) 0 2) 0
      ([1, 2, 3].filter (fun y => y != 2)) :=
  ⟨by decide, by decide,
   (unlink_removes (run emptyState 0 [Op.pushBack 1, Op.pushBack 2, Op.pushBack 3]) 0
      [1, 2, 3] 2 (by decide) (by decide)).1⟩

/-- C5: for distinct well-formed headers A (non-empty, a1..an) and B (non-empty,
b1..bm) with disjoint members, moveAppend(A, B, a1) succeeds and leaves B
well-formed with member sequence b1..bm,a1..an (head = b1, tail = an,
bm.next = a1, a1.prev = bm) and A empty (head = tail = nullptr). -/
theorem moveAppend_onto_nonempty (s : State) (A B : ListId) (a1 : Obj)
    (LA LB : List Obj) (hAB : A ≠ B) (hA : WF s A (a1 :: LA)) (hB : WF s B LB)
    (hne : LB ≠ []) (hdisj : ∀ y, y ∈ a1 :: LA → y ∉ LB) :
    (moveAppend s A B a1).1 = Except.ok () ∧
    WF (moveAppend s A B a1).2 B (LB ++ a1 :: LA) ∧
    (((moveAppend s A B a1).2).lists B).m_headp = LB.head? ∧
    (((moveAppend s A B a1).2).lists B).m_tailp = (a1 :: LA).getLast? ∧
    (∀ bm, LB.getLast? = some bm →
      (((moveAppend s A B a1).2).ents bm).m_nextp = some a1 ∧
      (((moveAppend s A B a1).2).ents a1).m_prevp = some bm) ∧
    WF (moveAppend s A B a1).2 A [] ∧
    (((moveAppend s A B a1).2).lists A).m_headp = none ∧
    (((moveAppend s A B a1).2).lists A).m_tailp = none := by
  have hBA : ¬ B = A := fun e => hAB e.symm
  have hhA : (s.lists A).m_headp = some a1 := hA.2.1
  have hhB : (s.lists B).m_headp ≠ none := by
    rw [hB.2.1]
    cases LB with
    | nil => exact absurd rfl hne
    | cons b r => simp
  have hl : LB.getLast? = some (LB.getLast hne) := List.getLast?_eq_getLast _ _
  have htB : (s.lists B).m_tailp = some (LB.getLast hne) := by rw [hB.2.2.1, hl]
  rw [moveAppend_onto s A B a1 _ hhA hAB hhB htB]
  obtain ⟨hw1, hw2⟩ := onto_state_wf s A B a1 _ LA LB hAB hA hB hl hdisj
  have hw2' := (wf_nil_iff _ _).mp hw2
  refine ⟨rfl, hw1, ?_, ?_, ?_, hw2, hw2'.1, hw2'.2⟩
  · simp [hBA, hB.2.1]
  · simp [hA.2.2.1]
  · intro bm hbm
    rw [hl] at hbm
    cases hbm
    simp

theorem moveAppend_onto_nonempty_witness :
    (moveAppend (pushBack (pushBack (pushBack emptyState 0 1) 0 2) 1 3) 0 1 1).1
      = Except.ok () ∧
    WF (moveAppend (pushBack (pushBack (pushBack emptyState 0 1) 0 2) 1 3) 0 1 1).2 1
      ([3] ++ 1 :: [2]) :=
  ⟨(moveAppend_onto_nonempty (pushBack (pushBack (pushBack emptyState 0 1) 0 2) 1 3)
      0 1 1 [2] [3] (by decide) (by decide) (by decide) (by decide) (by decide)).1,
   (moveAppend_onto_nonempty (pushBack (pushBack (pushBack emptyState 0 1) 0 2) 1 3)
      0 1 1 [2] [3] (by decide) (by decide) (by decide) (by decide) (by decide)).2.1⟩

/-- C6: for a well-formed non-empty header A with sequence a1..an and an empty
header B distinct from A, moveAppend(A, B, a1) succeeds and leaves B well-formed
with member sequence a1..an (head = a1, tail = an) and A empty
(head = tail = nullptr). -/
theorem moveAppend_into_empty_target (s : State) (A B : ListId) (a1 : Obj)
    (LA : List Obj) (hAB : A ≠ B) (hA : WF s A (a1 :: LA)) (hB : WF s B []) :
    (moveAppend s A B a1).1 = Except.ok () ∧
    WF (moveAppend s A B a1).2 B (a1 :: LA) ∧
    (((moveAppend s A B a1).2).lists B).m_headp = some a1 ∧
    (((moveAppend s A B a1).2).lists B).m_tailp = (a1 :: LA).getLast? ∧
    WF (moveAppend s A B a1).2 A [] ∧
    (((moveAppend s A B a1).2).lists A).m_headp = none ∧
    (((moveAppend s A B a1).2).lists A).m_tailp = none := by
  have hhA : (s.lists A).m_headp = some a1 := hA.2.1
  have hhB : (s.lists B).m_headp = none := ((wf_nil_iff s B).mp hB).1
  rw [moveAppend_into_empty s A B a1 hhA (Or.inr hhB)]
  obtain ⟨hw1, hw2⟩ := into_empty_state_wf s A B a1 LA hAB hA
  have hw2' := (wf_nil_iff _ _).mp hw2
  exact ⟨rfl, hw1, hw1.2.1, hw1.2.2.1, hw2, hw2'.1, hw2'.2⟩

theorem moveAppend_into_empty_target_witness :
    (moveAppend (pushBack (pushBack emptyState 0 1) 0 2) 0 1 1).1 = Except.ok () ∧
    WF (moveAppend (pushBack (pushBack emptyState 0 1) 0 2) 0 1 1).2 1 [1, 2] ∧
    WF (moveAppend (pushBack (pushBack emptyState 0 1) 0 2) 0 1 1).2 0 [] :=
  ⟨(moveAppend_into_empty_target (pushBack (pushBack emptyState 0 1) 0 2) 0 1 1 [2]
      (by decide) (by decide) (by decide)).1,
   (moveAppend_into_empty_target (pushBack (pushBack emptyState 0 1) 0 2) 0 1 1 [2]
      (by decide) (by decide) (by decide)).2.1,
   (moveAppend_into_empty_target (pushBack (pushBack emptyState 0 1) 0 2) 0 1 1 [2]
      (by decide) (by decide) (by decide)).2.2.2.2.1⟩

theorem moveAppend_ok_cases (s : State) (A B : ListId) (x : Obj)
    (hok : (moveAppend s A B x).1 = Except.ok ()) :
    ((A = B ∨ (s.lists B).m_headp = none) ∧
      (moveAppend s A B x).2 =
        ((s.resetList A).setHead B (some x)).setTail B (s.lists A).m_tailp) ∨
    (A ≠ B ∧ (s.lists B).m_headp ≠ none ∧ ∃ t, (s.lists B).m_tailp = some t ∧
      (moveAppend s A B x).2 =
        (((s.resetList A).setNext t (some x)).setPrev x (some t)).setTail B
          (s.lists A).m_tailp) := by
  by_cases hx : (s.lists A).m_headp = some x
  · by_cases hB : A = B ∨ (s.lists B).m_headp = none
    · left
      exact ⟨hB, by rw [moveAppend_into_empty s A B x hx hB]⟩
    · right
      rw [not_or] at hB
      cases ht : (s.lists B).m_tailp with
      | none =>
        rw [moveAppend_null s A B x hx hB.1 hB.2 ht] at hok
        simp at hok
      | some t =>
        exact ⟨hB.1, hB.2, t, rfl, by rw [moveAppend_onto s A B x t hx hB.1 hB.2 ht]⟩
  · rw [moveAppend_fatal s A B x hx] at hok
    simp at hok

/-- C7: moveAppend raises the fatal assertion error if and only if self is not
the head of the source header, and when it raises, the memory (both headers and
every object's next and prev) is what it was before the call. -/
theorem moveAppend_fails_iff (s : State) (A B : ListId) (self : Obj) :
    ((∃ msg, (moveAppend s A B self).1 = Except.error (Fault.fatal msg)) ↔
      (s.lists A).m_headp ≠ some self) ∧
    ((s.lists A).m_headp ≠ some self →
      (moveAppend s A B self).1 = Except.error (Fault.fatal moveAppendMsg)) ∧
    (∀ msg, (moveAppend s A B self).1 = Except.error (Fault.fatal msg) →
      (moveAppend s A B self).2 = s) := by
  have key : ∀ msg, (moveAppend s A B self).1 = Except.error (Fault.fatal msg) →
      (s.lists A).m_headp ≠ some self := by
    intro msg hmsg hx
    by_cases hB : A = B ∨ (s.lists B).m_headp = none
    · rw [moveAppend_into_empty s A B self hx hB] at hmsg
      simp at hmsg
    · rw [not_or] at hB
      cases ht : (s.lists B).m_tailp with
      | none =>
        rw [moveAppend_null s A B self hx hB.1 hB.2 ht] at hmsg
        simp at hmsg
      | some t =>
        rw [moveAppend_onto s A B self t hx hB.1 hB.2 ht] at hmsg
        simp at hmsg
  refine ⟨⟨fun ⟨msg, hmsg⟩ => key msg hmsg, fun hx => ⟨moveAppendMsg, ?_⟩⟩, ?_, ?_⟩
  · rw [moveAppend_fatal s A B self hx]
  · intro hx
    rw [moveAppend_fatal s A B self hx]
  · intro msg hmsg
    rw [moveAppend_fatal s A B self (key msg hmsg)]

theorem moveAppend_fails_iff_witness :
    (pushBack emptyState 0 1).lists 0 = { m_headp := some 1, m_tailp := some 1 } ∧
    (moveAppend (pushBack emptyState 0 1) 0 1 2).1
      = Except.error (Fault.fatal moveAppendMsg) ∧
    (moveAppend (pushBack emptyState 0 1) 0 1 2).2 = pushBack emptyState 0 1 :=
  ⟨by decide,
   (moveAppend_fails_iff (pushBack emptyState 0 1) 0 1 2).2.1 (by decide),
   (moveAppend_fails_iff (pushBack emptyState 0 1) 0 1 2).2.2 moveAppendMsg
     ((moveAppend_fails_iff (pushBack emptyState 0 1) 0 1 2).2.1 (by decide))⟩

theorem not_last_of_mem_dropLast (L : List Obj) (y : Obj) (hnd : L.Nodup)
    (hy : y ∈ L.dropLast) : L.getLast? ≠ some y := by
  intro hl
  obtain ⟨D, rfl⟩ := List.getLast?_eq_some_iff.mp hl
  rw [List.dropLast_concat] at hy
  rw [List.nodup_append] at hnd
  exact hnd.2.2 hy (List.mem_singleton_self y)

/-- C8: a successful moveAppend(A, B, a1) leaves the next and prev of every
object unchanged, except possibly the next field of the former tail of B and
the prev field of a1; for well-formed disjoint lists a1.next and both link
fields of a2..an and of b1..b(m-1) are unchanged; when B was empty no link
field changes at all; headers other than A and B are unchanged. -/
theorem moveAppend_frame (s : State) (A B : ListId) (a1 : Obj)
    (hok : (moveAppend s A B a1).1 = Except.ok ()) :
    (∀ y, (s.lists B).m_tailp ≠ some y →
      (((moveAppend s A B a1).2).ents y).m_nextp = (s.ents y).m_nextp) ∧
    (∀ y, y ≠ a1 →
      (((moveAppend s A B a1).2).ents y).m_prevp = (s.ents y).m_prevp) ∧
    (∀ LA LB, WF s A (a1 :: LA) → WF s B LB → (∀ y, y ∈ a1 :: LA → y ∉ LB) →
      (((moveAppend s A B a1).2).ents a1).m_nextp = (s.ents a1).m_nextp ∧
      (∀ y, y ∈ LA ∨ y ∈ LB.dropLast →
        (((moveAppend s A B a1).2).ents y).m_nextp = (s.ents y).m_nextp ∧
        (((moveAppend s A B a1).2).ents y).m_prevp = (s.ents y).m_prevp)) ∧
    ((s.lists B).m_headp = none → ((moveAppend s A B a1).2).ents = s.ents) ∧
    (∀ i, i ≠ A → i ≠ B → ((moveAppend s A B a1).2).lists i = s.lists i) := by
  have hnext : ∀ y, (s.lists B).m_tailp ≠ some y →
      (((moveAppend s A B a1).2).ents y).m_nextp = (s.ents y).m_nextp := by
    intro y hy
    rcases moveAppend_ok_cases s A B a1 hok with ⟨_, he⟩ | ⟨_, _, t, ht, he⟩
    · rw [he]; simp
    · rw [he]
      have : y ≠ t := fun e => hy (e ▸ ht)
      simp [this]
  have hprev : ∀ y, y ≠ a1 →
      (((moveAppend s A B a1).2).ents y).m_prevp = (s.ents y).m_prevp := by
    intro y hy
    rcases moveAppend_ok_cases s A B a1 hok with ⟨_, he⟩ | ⟨_, _, t, _, he⟩
    · rw [he]; simp
    · rw [he]; simp [hy]
  refine ⟨hnext, hprev, ?_, ?_, ?_⟩
  · intro LA LB hA hB hdisj
    have ha1 : (s.lists B).m_tailp ≠ some a1 := by
      rw [hB.2.2.1]
      exact fun hl => hdisj a1 (List.mem_cons_self _ _) (List.mem_of_getLast?_eq_some hl)
    refine ⟨hnext a1 ha1, ?_⟩
    intro y hy
    rcases hy with hy | hy
    · have hne : y ≠ a1 := fun e => (List.nodup_cons.mp hA.1).1 (e ▸ hy)
      have hnt : (s.lists B).m_tailp ≠ some y := by
        rw [hB.2.2.1]
        exact fun hl =>
          hdisj y (List.mem_cons_of_mem _ hy) (List.mem_of_getLast?_eq_some hl)
      exact ⟨hnext y hnt, hprev y hne⟩
    · have hne : y ≠ a1 := fun e =>
        hdisj a1 (List.mem_cons_self _ _) (e ▸ List.mem_of_mem_dropLast hy)
      have hnt : (s.lists B).m_tailp ≠ some y := by
        rw [hB.2.2.1]
        exact not_last_of_mem_dropLast LB y hB.1 hy
      exact ⟨hnext y hnt, hprev y hne⟩
  · intro hB
    rcases moveAppend_ok_cases s A B a1 hok with ⟨_, he⟩ | ⟨_, hne, _⟩
    · rw [he]; rfl
    · exact absurd hB hne
  · intro i hiA hiB
    rcases moveAppend_ok_cases s A B a1 hok with ⟨_, he⟩ | ⟨_, _, t, _, he⟩
    · rw [he]
      simp [State.setTail, State.setHead, State.resetList, hiA, hiB]
    · rw [he]
      simp [State.setTail, State.resetList, hiA, hiB]

theorem moveAppend_frame_witness :
    (moveAppend (pushBack (pushBack (pushBack emptyState 0 1) 0 2) 1 3) 0 1 1).1
      = Except.ok () ∧
    ((moveAppend (pushBack (pushBack (pushBack emptyState 0 1) 0 2) 1 3) 0 1 1).2.ents
        2).m_prevp
      = ((pushBack (pushBack (pushBack emptyState 0 1) 0 2) 1 3).ents 2).m_prevp :=
  ⟨rfl,
   (moveAppend_frame (pushBack (pushBack (pushBack emptyState 0 1) 0 2) 1 3) 0 1 1
      rfl).2.1 2 (by decide)⟩

/-- C9: in every state, reset of a header leaves it with head = tail = nullptr,
empty() true, begin() == end() and rbegin() == rend(), and leaves the next and
prev of every object as they were, so the members of a well-formed list of two
or more elements keep a link that is not nullptr. -/
theorem reset_detaches_header_only (s : State) (h : ListId) :
    ((s.resetList h).lists h).m_headp = none ∧
    ((s.resetList h).lists h).m_tailp = none ∧
    ((s.resetList h).lists h).empty = true ∧
    ((s.resetList h).lists h).begin = ((s.resetList h).lists h).end_ ∧
    ((s.resetList h).lists h).rbegin = ((s.resetList h).lists h).rend ∧
    (s.resetList h).ents = s.ents ∧
    (∀ L, WF s h L → 2 ≤ L.length → ∀ x, x ∈ L →
      ((s.resetList h).ents x).m_nextp ≠ none ∨
      ((s.resetList h).ents x).m_prevp ≠ none) := by
  refine ⟨by simp, by simp, by simp [V3List.empty], by simp [V3List.begin, V3List.end_],
    by simp [V3List.rbegin, V3List.rend], rfl, ?_⟩
  intro L hwf hlen x hx
  obtain ⟨i, hi, rfl⟩ := List.getElem_of_mem hx
  have hlinks := hwf.2.2.2 i hi
  simp only [State.resetList_ents, List.get_eq_getElem] at hlinks ⊢
  cases i with
  | zero =>
    left
    rw [hlinks.1, List.get?_eq_getElem?, List.getElem?_eq_getElem (by omega)]
    simp
  | succ j =>
    right
    rw [hlinks.2, List.get?_eq_getElem?, List.getElem?_eq_getElem (by omega)]
    simp

theorem reset_detaches_header_only_witness :
    WF (pushBack (pushBack emptyState 0 1) 0 2) 0 [1, 2] ∧
    ((((pushBack (pushBack emptyState 0 1) 0 2).resetList 0).ents 1).m_nextp ≠ none ∨
     (((pushBack (pushBack emptyState 0 1) 0 2).resetList 0).ents 1).m_prevp ≠ none) :=
  ⟨by decide,
   (reset_detaches_header_only (pushBack (pushBack emptyState 0 1) 0 2) 0).2.2.2.2.2.2
     [1, 2] (by decide) (by decide) 1 (by decide)⟩

/-- C10: in every state and for every object self, with no well-formedness or
membership precondition (also when self.next or self.prev refer to self), after
unlink(header, self) both self.next and self.prev are nullptr. -/
theorem unlink_clears_own_links (s : State) (h : ListId) (self : Obj) :
    ((unlink s h self).ents self).m_nextp = none ∧
    ((unlink s h self).ents self).m_prevp = none := by
  rw [unlink_next, unlink_prev, if_pos rfl, if_pos rfl]
  exact ⟨rfl, rfl⟩

/-! ## Equality of states, field by field -/

theorem list_eq_of_fields (l l' : V3List) (hh : l.m_headp = l'.m_headp)
    (ht : l.m_tailp = l'.m_tailp) : l = l' := by
  cases l; cases l'; simp_all

theorem ent_eq_of_fields (e e' : V3ListEnt) (hn : e.m_nextp = e'.m_nextp)
    (hp : e.m_prevp = e'.m_prevp) : e = e' := by
  cases e; cases e'; simp_all

theorem state_eq_of_fields (s t : State)
    (hh : ∀ i, (s.lists i).m_headp = (t.lists i).m_headp)
    (ht : ∀ i, (s.lists i).m_tailp = (t.lists i).m_tailp)
    (hn : ∀ y, (s.ents y).m_nextp = (t.ents y).m_nextp)
    (hp : ∀ y, (s.ents y).m_prevp = (t.ents y).m_prevp) : s = t := by
  obtain ⟨sl, se⟩ := s
  obtain ⟨tl, te⟩ := t
  have h1 : sl = tl := funext fun i => list_eq_of_fields _ _ (hh i) (ht i)
  have h2 : se = te := funext fun y => ent_eq_of_fields _ _ (hn y) (hp y)
  rw [h1, h2]

/-! ## Claims on single calls and short scenarios -/

/-- C13: from an empty header (head = tail = nullptr) and an unlinked object x
(next = prev = nullptr), pushBack(header, x) followed by unlink(header, x)
leaves the header empty (head = tail = nullptr, empty() true) and x with
next = prev = nullptr. -/
theorem pushBack_unlink_single (s : State) (h : ListId) (x : Obj)
    (hhead : (s.lists h).m_headp = none) (htail : (s.lists h).m_tailp = none)
    (hnext : (s.ents x).m_nextp = none) (hprev : (s.ents x).m_prevp = none) :
    ((unlink (pushBack s h x) h x).lists h).m_headp = none ∧
    ((unlink (pushBack s h x) h x).lists h).m_tailp = none ∧
    ((unlink (pushBack s h x) h x).lists h).empty = true ∧
    ((unlink (pushBack s h x) h x).ents x).m_nextp = none ∧
    ((unlink (pushBack s h x) h x).ents x).m_prevp = none ∧
    unlink (pushBack s h x) h x = s := by
  have hn : ((pushBack s h x).ents x).m_nextp = none := by
    rw [pushBack_next, htail]; simp
  have hp : ((pushBack s h x).ents x).m_prevp = none := by
    rw [pushBack_prev, if_pos rfl, htail]
  have h1 : ((unlink (pushBack s h x) h x).lists h).m_headp = none := by
    rw [unlink_head, hn, hp]; simp
  have h2 : ((unlink (pushBack s h x) h x).lists h).m_tailp = none := by
    rw [unlink_tail, hn, hp]; simp
  refine ⟨h1, h2, by simp [V3List.empty, h1], by rw [unlink_next, if_pos rfl],
    by rw [unlink_prev, if_pos rfl], ?_⟩
  apply state_eq_of_fields
  · intro i
    rw [unlink_head, hn, hp, pushBack_head]
    by_cases hi : i = h
    · subst hi; simp [hhead]
    · simp [hi]
  · intro i
    rw [unlink_tail, hn, hp, pushBack_tail]
    by_cases hi : i = h
    · subst hi; simp [htail]
    · simp [hi]
  · intro y
    rw [unlink_next, hn, hp, pushBack_next, htail]
    by_cases hy : y = x
    · subst hy; simp [hnext]
    · simp [hy]
  · intro y
    rw [unlink_prev, hn, hp, pushBack_prev]
    by_cases hy : y = x
    · subst hy; simp [hprev]
    · simp [hy]

theorem pushBack_unlink_single_witness :
    (emptyState.lists 0).m_headp = none ∧
    ((unlink (pushBack emptyState 0 4) 0 4).lists 0).empty = true ∧
    ((unlink (pushBack emptyState 0 4) 0 4).ents 4).m_prevp = none :=
  ⟨rfl,
   (pushBack_unlink_single emptyState 0 4 rfl rfl rfl rfl).2.2.1,
   (pushBack_unlink_single emptyState 0 4 rfl rfl rfl rfl).2.2.2.2.1⟩

/-- C14: for distinct objects x and y and an empty header, pushFront(header, x)
then pushBack(header, y) yields the well-formed member sequence [x, y]
(head = x, tail = y, x.next = y, y.prev = x, x.prev = y.next = nullptr), and a
subsequent unlink(header, x) yields the sequence [y] with head = tail = y and
y.next = y.prev = nullptr. -/
theorem interleaved_push_scenario (s : State) (h : ListId) (x y : Obj)
    (hxy : x ≠ y) (hhead : (s.lists h).m_headp = none)
    (htail : (s.lists h).m_tailp = none) :
    WF (pushBack (pushFront s h x) h y) h [x, y] ∧
    ((pushBack (pushFront s h x) h y).lists h).m_headp = some x ∧
    ((pushBack (pushFront s h x) h y).lists h).m_tailp = some y ∧
    ((pushBack (pushFront s h x) h y).ents x).m_nextp = some y ∧
    ((pushBack (pushFront s h x) h y).ents y).m_prevp = some x ∧
    ((pushBack (pushFront s h x) h y).ents x).m_prevp = none ∧
    ((pushBack (pushFront s h x) h y).ents y).m_nextp = none ∧
    WF (unlink (pushBack (pushFront s h x) h y) h x) h [y] ∧
    ((unlink (pushBack (pushFront s h x) h y) h x).lists h).m_headp = some y ∧
    ((unlink (pushBack (pushFront s h x) h y) h x).lists h).m_tailp = some y ∧
    ((unlink (pushBack (pushFront s h x) h y) h x).ents y).m_nextp = none ∧
    ((unlink (pushBack (pushFront s h x) h y) h x).ents y).m_prevp = none := by
  have hyx : y ≠ x := fun e => hxy e.symm
  have hwf0 : WF s h [] := (wf_nil_iff s h).mpr ⟨hhead, htail⟩
  have hwf1 : WF (pushFront s h x) h [x] := pushFront_wf s h [] x hwf0 (by simp)
  have hwf2 : WF (pushBack (pushFront s h x) h y) h [x, y] :=
    pushBack_wf _ h [x] y hwf1 (by simpa using hyx)
  have hwf3 : WF (unlink (pushBack (pushFront s h x) h y) h x) h [y] := by
    have := unlink_wf_split _ h [] [y] x hwf2
    simpa using this
  have c2 := (wf_iff_chain _ _ _).mp hwf2
  have c3 := (wf_iff_chain _ _ _).mp hwf3
  obtain ⟨_, hh2, ht2, hc2⟩ := c2
  obtain ⟨_, hh3, ht3, hc3⟩ := c3
  simp only [Chain] at hc2 hc3
  exact ⟨hwf2, hh2, ht2, hc2.2.1, hc2.2.2.1, hc2.1, hc2.2.2.2, hwf3, hh3, ht3,
    hc3.2, hc3.1⟩

theorem interleaved_push_scenario_witness :
    (1 : Obj) ≠ 2 ∧
    WF (pushBack (pushFront emptyState 0 1) 0 2) 0 [1, 2] ∧
    WF (unlink (pushBack (pushFront emptyState 0 1) 0 2) 0 1) 0 [2] :=
  ⟨by decide,
   (interleaved_push_scenario emptyState 0 1 2 (by decide) rfl rfl).1,
   (interleaved_push_scenario emptyState 0 1 2 (by decide) rfl rfl).2.2.2.2.2.2.2.1⟩

/-- C15: with mirror the transformation that swaps head with tail in the
headers and next with prev in every object, pushFront(header, self) is
mirror(pushBack(mirror(state), self)) in every state whose head is not self;
an object that is not a member of the list is in particular not its head. -/
theorem pushFront_mirrors_pushBack (s : State) (h : ListId) (self : Obj)
    (hhead : (s.lists h).m_headp ≠ some self) :
    pushFront s h self = mirror (pushBack (mirror s) h self) := by
  apply state_eq_of_fields
  · intro i
    rw [pushFront_head]
    show _ = ((pushBack (mirror s) h self).lists i).m_tailp
    rw [pushBack_tail]
    rfl
  · intro i
    rw [pushFront_tail]
    show _ = ((pushBack (mirror s) h self).lists i).m_headp
    rw [pushBack_head]
    rfl
  · intro y
    rw [pushFront_next]
    show _ = ((pushBack (mirror s) h self).ents y).m_prevp
    rw [pushBack_prev]
    rfl
  · intro y
    rw [pushFront_prev]
    show _ = ((pushBack (mirror s) h self).ents y).m_nextp
    rw [pushBack_next]
    show _ = if (s.lists h).m_headp = some y then some self
      else if y = self then none else (s.ents y).m_prevp
    by_cases hy : y = self
    · subst hy
      simp [hhead]
    · simp [hy]

theorem pushFront_mirrors_pushBack_witness :
    ((pushBack emptyState 0 1).lists 0).m_headp ≠ some 2 ∧
    pushFront (pushBack emptyState 0 1) 0 2
      = mirror (pushBack (mirror (pushBack emptyState 0 1)) 0 2) :=
  ⟨by decide, pushFront_mirrors_pushBack (pushBack emptyState 0 1) 0 2 (by decide)⟩

/-- C16: for a well-formed header with member sequence L (empty or not) and an
object self that is not a member and has next = prev = nullptr, pushBack
followed by unlink of self gives back exactly the state before the push
(header and every object's next and prev), and so does pushFront followed by
unlink. -/
theorem push_then_unlink_identity (s : State) (h : ListId) (L : List Obj) (self : Obj)
    (hwf : WF s h L) (hself : self ∉ L)
    (hnext : (s.ents self).m_nextp = none) (hprev : (s.ents self).m_prevp = none) :
    unlink (pushBack s h self) h self = s ∧ unlink (pushFront s h self) h self = s := by
  obtain ⟨hnd, hh, ht, hc⟩ := (wf_iff_chain _ _ _).mp hwf
  have htne : (s.lists h).m_tailp ≠ some self := by
    rw [ht]; exact fun e => hself (List.mem_of_getLast?_eq_some e)
  have hhne : (s.lists h).m_headp ≠ some self := by
    rw [hh]; exact fun e => hself (List.mem_of_mem_head? e)
  have hempty : (s.lists h).m_headp = none ↔ (s.lists h).m_tailp = none := by
    rw [hh, ht]
    cases L with
    | nil => simp
    | cons a r =>
      rw [List.getLast?_eq_getLast _ (List.cons_ne_nil a r)]
      simp
  -- the old tail has no successor, the old head no predecessor
  have htail_next : ∀ t, (s.lists h).m_tailp = some t → (s.ents t).m_nextp = none := by
    intro t htt
    rw [ht] at htt
    obtain ⟨D, rfl⟩ := List.getLast?_eq_some_iff.mp htt
    rw [chain_append] at hc
    simp only [Chain] at hc
    exact hc.2.2
  have hhead_prev : ∀ t, (s.lists h).m_headp = some t → (s.ents t).m_prevp = none := by
    intro t htt
    rw [hh] at htt
    obtain ⟨D, rfl⟩ := List.head?_eq_some_iff.mp htt
    rw [chain_cons] at hc
    exact hc.1
  constructor
  · have hn : ((pushBack s h self).ents self).m_nextp = none := by
      rw [pushBack_next, if_neg htne, if_pos rfl]
    have hp : ((pushBack s h self).ents self).m_prevp = (s.lists h).m_tailp := by
      rw [pushBack_prev, if_pos rfl]
    apply state_eq_of_fields
    · intro i
      rw [unlink_head, hn, hp, pushBack_head]
      by_cases hi : i = h
      · subst hi
        cases hhd : (s.lists i).m_headp with
        | none => simp [hempty.mp hhd]
        | some a =>
          have : (s.lists i).m_tailp ≠ none := fun e => by
            rw [hempty.mpr e] at hhd; cases hhd
          simp [this]
      · simp [hi]
    · intro i
      rw [unlink_tail, hn, hp, pushBack_tail]
      by_cases hi : i = h
      · subst hi; simp
      · simp [hi]
    · intro y
      rw [unlink_next, hn, hp, pushBack_next]
      by_cases hy : y = self
      · subst hy; simp [hnext]
      · by_cases hty : (s.lists h).m_tailp = some y
        · simp [hy, hty, htail_next y hty]
        · simp [hy, hty]
    · intro y
      rw [unlink_prev, hn, hp, pushBack_prev]
      by_cases hy : y = self
      · subst hy; simp [hprev]
      · simp [hy]
  · have hn : ((pushFront s h self).ents self).m_nextp = (s.lists h).m_headp := by
      rw [pushFront_next, if_pos rfl]
    have hp : ((pushFront s h self).ents self).m_prevp = none := by
      rw [pushFront_prev, if_pos rfl]
    apply state_eq_of_fields
    · intro i
      rw [unlink_head, hn, hp, pushFront_head]
      by_cases hi : i = h
      · subst hi; simp
      · simp [hi]
    · intro i
      rw [unlink_tail, hn, hp, pushFront_tail]
      by_cases hi : i = h
      · subst hi
        cases htl : (s.lists i).m_tailp with
        | none => simp [hempty.mpr htl]
        | some a =>
          have : (s.lists i).m_headp ≠ none := fun e => by
            rw [hempty.mp e] at htl; cases htl
          simp [this]
      · simp [hi]
    · intro y
      rw [unlink_next, hn, hp, pushFront_next]
      by_cases hy : y = self
      · subst hy; simp [hnext]
      · simp [hy]
    · intro y
      rw [unlink_prev, hn, hp, pushFront_prev]
      by_cases hy : y = self
      · subst hy; simp [hprev]
      · by_cases hty : (s.lists h).m_headp = some y
        · simp [hy, hty, hhead_prev y hty]
        · simp [hy, hty]

theorem push_then_unlink_identity_witness :
    WF (pushBack (pushBack emptyState 0 1) 0 2) 0 [1, 2] ∧ 3 ∉ [1, 2] ∧
    unlink (pushBack (pushBack (pushBack emptyState 0 1) 0 2) 0 3) 0 3
      = pushBack (pushBack emptyState 0 1) 0 2 :=
  ⟨by decide, by decide,
   (push_then_unlink_identity (pushBack (pushBack emptyState 0 1) 0 2) 0 [1, 2] 3
      (by decide) (by decide) rfl rfl).1⟩

/-- C17: in every state, pushBack changes at most self.next, self.prev and the
next field of the old tail; pushFront changes at most self.next, self.prev and
the prev field of the old head; unlink changes at most self.next, self.prev,
the prev field of the successor of self and the next field of the predecessor
of self; every header other than the one passed in is unchanged. -/
theorem single_calls_frame (s : State) (h : ListId) (self : Obj) :
    ((∀ y, y ≠ self → (s.lists h).m_tailp ≠ some y →
        ((pushBack s h self).ents y).m_nextp = (s.ents y).m_nextp) ∧
     (∀ y, y ≠ self → ((pushBack s h self).ents y).m_prevp = (s.ents y).m_prevp) ∧
     (∀ i, i ≠ h → (pushBack s h self).lists i = s.lists i)) ∧
    ((∀ y, y ≠ self → ((pushFront s h self).ents y).m_nextp = (s.ents y).m_nextp) ∧
     (∀ y, y ≠ self → (s.lists h).m_headp ≠ some y →
        ((pushFront s h self).ents y).m_prevp = (s.ents y).m_prevp) ∧
     (∀ i, i ≠ h → (pushFront s h self).lists i = s.lists i)) ∧
    ((∀ y, y ≠ self → (s.ents self).m_prevp ≠ some y →
        ((unlink s h self).ents y).m_nextp = (s.ents y).m_nextp) ∧
     (∀ y, y ≠ self → (s.ents self).m_nextp ≠ some y →
        ((unlink s h self).ents y).m_prevp = (s.ents y).m_prevp) ∧
     (∀ i, i ≠ h → (unlink s h self).lists i = s.lists i)) := by
  refine ⟨⟨?_, ?_, ?_⟩, ⟨?_, ?_, ?_⟩, ⟨?_, ?_, ?_⟩⟩
  · intro y hy ht
    rw [pushBack_next, if_neg ht, if_neg hy]
  · intro y hy
    rw [pushBack_prev, if_neg hy]
  · intro i hi
    apply list_eq_of_fields
    · rw [pushBack_head, if_neg hi]
    · rw [pushBack_tail, if_neg hi]
  · intro y hy
    rw [pushFront_next, if_neg hy]
  · intro y hy hh
    rw [pushFront_prev, if_neg hy, if_neg hh]
  · intro i hi
    apply list_eq_of_fields
    · rw [pushFront_head, if_neg hi]
    · rw [pushFront_tail, if_neg hi]
  · intro y hy hp
    rw [unlink_next, if_neg hy, if_neg hp]
  · intro y hy hn
    rw [unlink_prev, if_neg hy, if_neg hn]
  · intro i hi
    apply list_eq_of_fields
    · rw [unlink_head, if_neg (fun hc => hi hc.1)]
    · rw [unlink_tail, if_neg (fun hc => hi hc.1)]

theorem single_calls_frame_witness :
    (1 : Obj) ≠ 3 ∧
    ((pushBack (pushBack emptyState 0 1) 0 2).lists 0).m_tailp ≠ some 1 ∧
    ((pushBack (pushBack (pushBack emptyState 0 1) 0 2) 0 3).ents 1).m_nextp
      = ((pushBack (pushBack emptyState 0 1) 0 2).ents 1).m_nextp :=
  ⟨by decide, by decide,
   (single_calls_frame (pushBack (pushBack emptyState 0 1) 0 2) 0 3).1.1 1
     (by decide) (by decide)⟩

/-- C18: for every owner object self and every source header that is empty
(head = nullptr), moveAppend raises the fatal assertion error and leaves both
headers and every link field as they were. -/
theorem moveAppend_empty_source_fails (s : State) (A B : ListId) (self : Obj)
    (hempty : (s.lists A).m_headp = none) :
    (moveAppend s A B self).1 = Except.error (Fault.fatal moveAppendMsg) ∧
    (moveAppend s A B self).2 = s := by
  have hne : (s.lists A).m_headp ≠ some self := by
    rw [hempty]; exact fun e => by cases e
  rw [moveAppend_fatal s A B self hne]
  exact ⟨rfl, rfl⟩

theorem moveAppend_empty_source_fails_witness :
    (emptyState.lists 0).m_headp = none ∧
    (moveAppend emptyState 0 1 7).1 = Except.error (Fault.fatal moveAppendMsg) ∧
    (moveAppend emptyState 0 1 7).2 = emptyState :=
  ⟨rfl, moveAppend_empty_source_fails emptyState 0 1 7 rfl⟩

/-- C19: for a well-formed non-empty header A with head a1, moveAppend with A
as both source and destination and self = a1 succeeds and leaves the head and
tail of A, every other header and every object's next and prev exactly as they
were. -/
theorem moveAppend_self_noop (s : State) (A : ListId) (a1 : Obj) (LA : List Obj)
    (hwf : WF s A (a1 :: LA)) :
    (moveAppend s A A a1).1 = Except.ok () ∧
    ((moveAppend s A A a1).2.lists A).m_headp = (s.lists A).m_headp ∧
    ((moveAppend s A A a1).2.lists A).m_tailp = (s.lists A).m_tailp ∧
    (∀ y, ((moveAppend s A A a1).2.ents y).m_nextp = (s.ents y).m_nextp ∧
      ((moveAppend s A A a1).2.ents y).m_prevp = (s.ents y).m_prevp) ∧
    (moveAppend s A A a1).2 = s := by
  have hh : (s.lists A).m_headp = some a1 := hwf.2.1
  rw [moveAppend_into_empty s A A a1 hh (Or.inl rfl)]
  have heq : ((s.resetList A).setHead A (some a1)).setTail A (s.lists A).m_tailp = s := by
    apply state_eq_of_fields
    · intro i
      by_cases hi : i = A
      · subst hi; simp [hh]
      · simp [hi]
    · intro i
      by_cases hi : i = A
      · subst hi; simp
      · simp [hi]
    · intro y; simp
    · intro y; simp
  refine ⟨rfl, ?_, ?_, ?_, heq⟩
  · simp [hh]
  · simp
  · intro y; simp

theorem moveAppend_self_noop_witness :
    WF (pushBack (pushBack emptyState 0 1) 0 2) 0 (1 :: [2]) ∧
    (moveAppend (pushBack (pushBack emptyState 0 1) 0 2) 0 0 1).1 = Except.ok () ∧
    (moveAppend (pushBack (pushBack emptyState 0 1) 0 2) 0 0 1).2
      = pushBack (pushBack emptyState 0 1) 0 2 :=
  ⟨by decide,
   (moveAppend_self_noop (pushBack (pushBack emptyState 0 1) 0 2) 0 1 [2] (by decide)).1,
   (moveAppend_self_noop (pushBack (pushBack emptyState 0 1) 0 2) 0 1 [2]
      (by decide)).2.2.2.2⟩

/-! ## The offset arithmetic -/

theorem sizeSub_of_lt (w p b : Nat) (hp : p < 2 ^ w) (hb : b < 2 ^ w) :
    sizeSub w p b = if b ≤ p then p - b else p + 2 ^ w - b := by
  unfold sizeSub
  rw [Nat.mod_eq_of_lt hp, Nat.mod_eq_of_lt hb]
  split_ifs with hle
  · have : p + 2 ^ w - b = (p - b) + 2 ^ w := by omega
    rw [this, Nat.add_mod_right, Nat.mod_eq_of_lt (by omega)]
  · rw [Nat.mod_eq_of_lt (by omega)]

theorem sizeSub_lt (w a b : Nat) : sizeSub w a b < 2 ^ w :=
  Nat.mod_lt _ (Nat.two_pow_pos w)

/-- C20: with w the width of size_t, for a link field at address p and its
owner at address b, the offset (p - b) mod 2^w computed by the operations gives
baseToListEnt(b, offset) = p, and for every other base address c the address
baseToListEnt(c, offset) is at the same displacement from c, modulo 2^w; this
also holds when p is smaller than b. -/
theorem offset_locates_field (w p b c : Nat)
    (hp : p < 2 ^ w) (hb : b < 2 ^ w) (hc : c < 2 ^ w) :
    baseToListEnt w b (offsetOf w p b) = p ∧
    sizeSub w (baseToListEnt w c (offsetOf w p b)) c = sizeSub w p b := by
  have hoff : offsetOf w p b < 2 ^ w := sizeSub_lt w p b
  constructor
  · unfold baseToListEnt offsetOf
    rw [sizeSub_of_lt w p b hp hb]
    split_ifs with hle
    · have : b + (p - b) = p := by omega
      rw [this, Nat.mod_eq_of_lt hp]
    · have : b + (p + 2 ^ w - b) = p + 2 ^ w := by omega
      rw [this, Nat.add_mod_right, Nat.mod_eq_of_lt hp]
  · show sizeSub w (baseToListEnt w c (offsetOf w p b)) c = offsetOf w p b
    generalize offsetOf w p b = o at hoff
    have hlt : baseToListEnt w c o < 2 ^ w := Nat.mod_lt _ (Nat.two_pow_pos w)
    rw [sizeSub_of_lt w _ c hlt hc]
    unfold baseToListEnt
    by_cases hov : c + o < 2 ^ w
    · rw [Nat.mod_eq_of_lt hov, if_pos (by omega)]
      omega
    · have h1 : (c + o) % 2 ^ w = c + o - 2 ^ w := by
        have : c + o = (c + o - 2 ^ w) + 2 ^ w := by omega
        rw [this, Nat.add_mod_right, Nat.mod_eq_of_lt (by omega)]
        omega
      rw [h1, if_neg (by omega)]
      omega

theorem offset_locates_field_witness :
    (3 : Nat) < 2 ^ 4 ∧ (10 : Nat) < 2 ^ 4 ∧ (14 : Nat) < 2 ^ 4 ∧
    baseToListEnt 4 10 (offsetOf 4 3 10) = 3 ∧
    sizeSub 4 (baseToListEnt 4 14 (offsetOf 4 3 10)) 14 = sizeSub 4 3 10 :=
  ⟨by decide, by decide, by decide,
   offset_locates_field 4 3 10 14 (by decide) (by decide) (by decide)⟩

/-! ## Two headers sharing the link fields -/

theorem wf_frame (s t : State) (h : ListId) (L : List Obj) (hwf : WF s h L)
    (hh : (t.lists h).m_headp = (s.lists h).m_headp)
    (ht : (t.lists h).m_tailp = (s.lists h).m_tailp)
    (he : ∀ y, y ∈ L → (t.ents y).m_nextp = (s.ents y).m_nextp ∧
      (t.ents y).m_prevp = (s.ents y).m_prevp) : WF t h L := by
  rw [wf_iff_chain] at hwf ⊢
  obtain ⟨hnd, h1, h2, hc⟩ := hwf
  exact ⟨hnd, by rw [hh, h1], by rw [ht, h2], (chain_congr s.ents t.ents L none none he).mpr hc⟩

theorem wf_tail_mem (s : State) (h : ListId) (L : List Obj) (hwf : WF s h L) (y : Obj)
    (hy : (s.lists h).m_tailp = some y) : y ∈ L := by
  rw [hwf.2.2.1] at hy
  exact List.mem_of_getLast?_eq_some hy

theorem wf_head_mem (s : State) (h : ListId) (L : List Obj) (hwf : WF s h L) (y : Obj)
    (hy : (s.lists h).m_headp = some y) : y ∈ L := by
  rw [hwf.2.1] at hy
  exact List.mem_of_mem_head? hy

theorem wf_neighbours (s : State) (h : ListId) (L : List Obj) (x : Obj)
    (hwf : WF s h L) (hx : x ∈ L) :
    (∀ y, (s.ents x).m_prevp = some y → y ∈ L) ∧
    (∀ y, (s.ents x).m_nextp = some y → y ∈ L) := by
  obtain ⟨A, B, rfl⟩ := List.mem_iff_append.mp hx
  obtain ⟨_, _, _, hc⟩ := (wf_iff_chain _ _ _).mp hwf
  rw [chain_append, chain_cons] at hc
  simp only [Option.or_none] at hc
  obtain ⟨_, hp, hn, _⟩ := hc
  constructor
  · intro y hy
    rw [hp] at hy
    exact List.mem_append_left _ (List.mem_of_getLast?_eq_some hy)
  · intro y hy
    rw [hn] at hy
    exact List.mem_append_right _ (List.mem_cons_of_mem _ (List.mem_of_mem_head? hy))

theorem twoLists_symm (s : State) (h : ListId) (L : List Obj) (k : ListId) (K : List Obj)
    (hi : TwoLists s h L k K) : TwoLists s k K h L :=
  ⟨fun e => hi.1 e.symm, hi.2.2.1, hi.2.1, fun y hy hy' => hi.2.2.2 y hy' hy⟩

theorem unlinked_symm (s : State) (L K : List Obj) (hu : Unlinked s L K) :
    Unlinked s K L := fun y h1 h2 => hu y h2 h1

theorem twoLists_pushBack (s : State) (h : ListId) (L : List Obj) (k : ListId)
    (K : List Obj) (x : Obj) (hi : TwoLists s h L k K) (hxL : x ∉ L) (hxK : x ∉ K) :
    TwoLists (pushBack s h x) h (L ++ [x]) k K := by
  obtain ⟨hne, hL, hK, hd⟩ := hi
  have hkh : ¬ k = h := fun e => hne e.symm
  refine ⟨hne, pushBack_wf s h L x hL hxL, ?_, ?_⟩
  · apply wf_frame s _ k K hK
    · rw [pushBack_head, if_neg hkh]
    · rw [pushBack_tail, if_neg hkh]
    · intro y hy
      have hyx : y ≠ x := fun e => hxK (e ▸ hy)
      have hty : (s.lists h).m_tailp ≠ some y :=
        fun e => hd y (wf_tail_mem s h L hL y e) hy
      rw [pushBack_next, if_neg hty, if_neg hyx, pushBack_prev, if_neg hyx]
      exact ⟨rfl, rfl⟩
  · intro y hy
    rcases List.mem_append.mp hy with h1 | h1
    · exact hd y h1
    · rw [List.mem_singleton] at h1
      rw [h1]; exact hxK

theorem twoLists_pushFront (s : State) (h : ListId) (L : List Obj) (k : ListId)
    (K : List Obj) (x : Obj) (hi : TwoLists s h L k K) (hxL : x ∉ L) (hxK : x ∉ K) :
    TwoLists (pushFront s h x) h (x :: L) k K := by
  obtain ⟨hne, hL, hK, hd⟩ := hi
  have hkh : ¬ k = h := fun e => hne e.symm
  refine ⟨hne, pushFront_wf s h L x hL hxL, ?_, ?_⟩
  · apply wf_frame s _ k K hK
    · rw [pushFront_head, if_neg hkh]
    · rw [pushFront_tail, if_neg hkh]
    · intro y hy
      have hyx : y ≠ x := fun e => hxK (e ▸ hy)
      have hty : (s.lists h).m_headp ≠ some y :=
        fun e => hd y (wf_head_mem s h L hL y e) hy
      rw [pushFront_next, if_neg hyx, pushFront_prev, if_neg hyx, if_neg hty]
      exact ⟨rfl, rfl⟩
  · intro y hy
    rcases List.mem_cons.mp hy with h1 | h1
    · rw [h1]; exact hxK
    · exact hd y h1

theorem twoLists_unlink (s : State) (h : ListId) (L : List Obj) (k : ListId)
    (K : List Obj) (x : Obj) (hi : TwoLists s h L k K) (hxL : x ∈ L) :
    TwoLists (unlink s h x) h (L.erase x) k K := by
  obtain ⟨hne, hL, hK, hd⟩ := hi
  have hkh : ¬ k = h := fun e => hne e.symm
  obtain ⟨hpm, hnm⟩ := wf_neighbours s h L x hL hxL
  refine ⟨hne, unlink_wf s h L x hL hxL, ?_, ?_⟩
  · apply wf_frame s _ k K hK
    · rw [unlink_head, if_neg (fun hc => hkh hc.1)]
    · rw [unlink_tail, if_neg (fun hc => hkh hc.1)]
    · intro y hy
      have hyx : y ≠ x := fun e => hd x hxL (e ▸ hy)
      have h1 : (s.ents x).m_prevp ≠ some y := fun e => hd y (hpm y e) hy
      have h2 : (s.ents x).m_nextp ≠ some y := fun e => hd y (hnm y e) hy
      rw [unlink_next, if_neg hyx, if_neg h1, unlink_prev, if_neg hyx, if_neg h2]
      exact ⟨rfl, rfl⟩
  · intro y hy
    exact hd y (List.mem_of_mem_erase hy)

theorem twoLists_reset (s : State) (h : ListId) (L : List Obj) (k : ListId)
    (K : List Obj) (hi : TwoLists s h L k K) :
    TwoLists (s.resetList h) h [] k K := by
  obtain ⟨hne, _, hK, _⟩ := hi
  have hkh : ¬ k = h := fun e => hne e.symm
  refine ⟨hne, (wf_nil_iff _ _).mpr ⟨by simp, by simp⟩, ?_, fun y hy => by simp at hy⟩
  apply wf_frame s _ k K hK
  · simp [hkh]
  · simp [hkh]
  · intro y _
    exact ⟨rfl, rfl⟩

theorem moveAppend_same (s : State) (h : ListId) (x : Obj)
    (hx : (s.lists h).m_headp = some x) : moveAppend s h h x = (Except.ok (), s) := by
  rw [moveAppend_into_empty s h h x hx (Or.inl rfl)]
  have heq : ((s.resetList h).setHead h (some x)).setTail h (s.lists h).m_tailp = s := by
    apply state_eq_of_fields
    · intro i
      by_cases hi : i = h
      · subst hi; simp [hx]
      · simp [hi]
    · intro i
      by_cases hi : i = h
      · subst hi; simp
      · simp [hi]
    · intro y; simp
    · intro y; simp
  rw [heq]

theorem twoLists_moveAppend (s : State) (h : ListId) (L : List Obj) (k : ListId)
    (K : List Obj) (x : Obj) (hi : TwoLists s h L k K)
    (hx : (s.lists h).m_headp = some x) :
    (moveAppend s h k x).1 = Except.ok () ∧
    TwoLists (moveAppend s h k x).2 h [] k (K ++ L) ∧
    (∀ y, y ∉ L → y ∉ K →
      (((moveAppend s h k x).2).ents y).m_nextp = (s.ents y).m_nextp ∧
      (((moveAppend s h k x).2).ents y).m_prevp = (s.ents y).m_prevp) := by
  obtain ⟨hne, hL, hK, hd⟩ := hi
  have hLx : L.head? = some x := by rw [← hL.2.1, hx]
  obtain ⟨LA, rfl⟩ := List.head?_eq_some_iff.mp hLx
  cases K with
  | nil =>
    have hhk : (s.lists k).m_headp = none := ((wf_nil_iff s k).mp hK).1
    rw [moveAppend_into_empty s h k x hx (Or.inr hhk)]
    obtain ⟨hw1, hw2⟩ := into_empty_state_wf s h k x LA hne hL
    refine ⟨rfl, ⟨hne, hw2, by simpa using hw1, fun y hy => by simp at hy⟩, ?_⟩
    intro y _ _
    exact ⟨rfl, rfl⟩
  | cons b r =>
    have hnek : b :: r ≠ [] := List.cons_ne_nil b r
    have hl : (b :: r).getLast? = some ((b :: r).getLast hnek) :=
      List.getLast?_eq_getLast _ _
    have hhk : (s.lists k).m_headp ≠ none := by rw [hK.2.1]; simp
    have htk : (s.lists k).m_tailp = some ((b :: r).getLast hnek) := by
      rw [hK.2.2.1, hl]
    rw [moveAppend_onto s h k x _ hx hne hhk htk]
    obtain ⟨hw1, hw2⟩ := onto_state_wf s h k x _ LA (b :: r) hne hL hK hl hd
    refine ⟨rfl, ⟨hne, hw2, hw1, fun y hy => by simp at hy⟩, ?_⟩
    intro y hyL hyK
    have hyx : y ≠ x := fun e => hyL (e ▸ List.mem_cons_self _ _)
    have hyt : y ≠ (b :: r).getLast hnek := fun e => hyK (e ▸ List.getLast_mem _)
    simp [hyx, hyt]

theorem unlinked_pushBack (s : State) (h : ListId) (L : List Obj) (k : ListId)
    (K : List Obj) (x : Obj) (hi : TwoLists s h L k K) (hu : Unlinked s L K) :
    Unlinked (pushBack s h x) (L ++ [x]) K := by
  intro y hyL hyK
  have hyL' : y ∉ L := fun e => hyL (List.mem_append_left _ e)
  have hyx : y ≠ x := fun e =>
    hyL (List.mem_append_right _ (List.mem_singleton.mpr e))
  have hty : (s.lists h).m_tailp ≠ some y :=
    fun e => hyL' (wf_tail_mem s h L hi.2.1 y e)
  rw [pushBack_next, if_neg hty, if_neg hyx, pushBack_prev, if_neg hyx]
  exact hu y hyL' hyK

theorem unlinked_pushFront (s : State) (h : ListId) (L : List Obj) (k : ListId)
    (K : List Obj) (x : Obj) (hi : TwoLists s h L k K) (hu : Unlinked s L K) :
    Unlinked (pushFront s h x) (x :: L) K := by
  intro y hyL hyK
  have hyL' : y ∉ L := fun e => hyL (List.mem_cons_of_mem _ e)
  have hyx : y ≠ x := fun e => hyL (e ▸ List.mem_cons_self _ _)
  have hty : (s.lists h).m_headp ≠ some y :=
    fun e => hyL' (wf_head_mem s h L hi.2.1 y e)
  rw [pushFront_next, if_neg hyx, pushFront_prev, if_neg hyx, if_neg hty]
  exact hu y hyL' hyK

theorem unlinked_unlink (s : State) (h : ListId) (L : List Obj) (k : ListId)
    (K : List Obj) (x : Obj) (hi : TwoLists s h L k K) (hu : Unlinked s L K)
    (hxL : x ∈ L) : Unlinked (unlink s h x) (L.erase x) K := by
  intro y hyL hyK
  by_cases hyx : y = x
  · subst hyx
    rw [unlink_next, unlink_prev, if_pos rfl, if_pos rfl]
    exact ⟨rfl, rfl⟩
  · have hyL' : y ∉ L := fun e => hyL ((hi.2.1.1.mem_erase_iff).mpr ⟨hyx, e⟩)
    obtain ⟨hpm, hnm⟩ := wf_neighbours s h L x hi.2.1 hxL
    have h1 : (s.ents x).m_prevp ≠ some y := fun e => hyL' (hpm y e)
    have h2 : (s.ents x).m_nextp ≠ some y := fun e => hyL' (hnm y e)
    rw [unlink_next, if_neg hyx, if_neg h1, unlink_prev, if_neg hyx, if_neg h2]
    exact hu y hyL' hyK

theorem unlinked_moveAppend (s : State) (h : ListId) (L : List Obj) (k : ListId)
    (K : List Obj) (x : Obj) (hi : TwoLists s h L k K) (hu : Unlinked s L K)
    (hx : (s.lists h).m_headp = some x) :
    Unlinked (moveAppend s h k x).2 [] (K ++ L) := by
  intro y _ hyKL
  have hyL : y ∉ L := fun e => hyKL (List.mem_append_right _ e)
  have hyK : y ∉ K := fun e => hyKL (List.mem_append_left _ e)
  have := (twoLists_moveAppend s h L k K x hi hx).2.2 y hyL hyK
  rw [this.1, this.2]
  exact hu y hyL hyK

theorem succeeded_head (s : State) (A B : ListId) (x : Obj)
    (hok : succeeded (moveAppend s A B x).1 = true) : (s.lists A).m_headp = some x := by
  by_contra hne
  rw [moveAppend_fatal s A B x hne] at hok
  simp [succeeded] at hok

theorem step_twoLists (a b : ListId) (s : State) (m : Members) (c : Call)
    (hi : TwoLists s a m.fst b m.snd) (hc : c.allowed a b s m) :
    TwoLists (c.exec a b s) a (c.track m).fst b (c.track m).snd := by
  have hi' := twoLists_symm _ _ _ _ _ hi
  cases c with
  | pushBack w x =>
    cases w with
    | fst => exact twoLists_pushBack s a m.fst b m.snd x hi hc.1 hc.2
    | snd => exact twoLists_symm _ _ _ _ _ (twoLists_pushBack s b m.snd a m.fst x hi' hc.2 hc.1)
  | pushFront w x =>
    cases w with
    | fst => exact twoLists_pushFront s a m.fst b m.snd x hi hc.1 hc.2
    | snd =>
      exact twoLists_symm _ _ _ _ _ (twoLists_pushFront s b m.snd a m.fst x hi' hc.2 hc.1)
  | unlink w x =>
    cases w with
    | fst => exact twoLists_unlink s a m.fst b m.snd x hi hc
    | snd => exact twoLists_symm _ _ _ _ _ (twoLists_unlink s b m.snd a m.fst x hi' hc)
  | reset w =>
    cases w with
    | fst => exact twoLists_reset s a m.fst b m.snd hi
    | snd => exact twoLists_symm _ _ _ _ _ (twoLists_reset s b m.snd a m.fst hi')
  | moveAppend src dst x =>
    have hx := succeeded_head s _ _ x hc
    cases src with
    | fst =>
      cases dst with
      | fst =>
        simp only [Call.exec, Call.track, sel, if_true]
        rw [moveAppend_same s a x hx]
        exact hi
      | snd => exact (twoLists_moveAppend s a m.fst b m.snd x hi hx).2.1
    | snd =>
      cases dst with
      | fst =>
        exact twoLists_symm _ _ _ _ _ (twoLists_moveAppend s b m.snd a m.fst x hi' hx).2.1
      | snd =>
        simp only [Call.exec, Call.track, sel, if_true]
        rw [moveAppend_same s b x hx]
        exact hi

theorem inRole_allowed (a b : ListId) (s : State) (m : Members) (c : Call)
    (hi : TwoLists s a m.fst b m.snd) (hc : c.inRole a b s m) : c.allowed a b s m := by
  have hi' := twoLists_symm _ _ _ _ _ hi
  cases c with
  | pushBack w x => exact hc
  | pushFront w x => exact hc
  | unlink w x => exact hc
  | reset w => exact hc.elim
  | moveAppend src dst x =>
    have hx : (s.lists (sel a b src)).m_headp = some x := hc
    show succeeded (moveAppend s (sel a b src) (sel a b dst) x).1 = true
    cases src <;> cases dst
    · simp only [sel] at hx ⊢
      rw [moveAppend_same s a x hx]; rfl
    · simp only [sel] at hx ⊢
      rw [(twoLists_moveAppend s a m.fst b m.snd x hi hx).1]; rfl
    · simp only [sel] at hx ⊢
      rw [(twoLists_moveAppend s b m.snd a m.fst x hi' hx).1]; rfl
    · simp only [sel] at hx ⊢
      rw [moveAppend_same s b x hx]; rfl

theorem step_unlinked (a b : ListId) (s : State) (m : Members) (c : Call)
    (hi : TwoLists s a m.fst b m.snd) (hu : Unlinked s m.fst m.snd)
    (hc : c.inRole a b s m) :
    Unlinked (c.exec a b s) (c.track m).fst (c.track m).snd := by
  have hi' := twoLists_symm _ _ _ _ _ hi
  have hu' := unlinked_symm _ _ _ hu
  cases c with
  | pushBack w x =>
    cases w with
    | fst => exact unlinked_pushBack s a m.fst b m.snd x hi hu
    | snd => exact unlinked_symm _ _ _ (unlinked_pushBack s b m.snd a m.fst x hi' hu')
  | pushFront w x =>
    cases w with
    | fst => exact unlinked_pushFront s a m.fst b m.snd x hi hu
    | snd => exact unlinked_symm _ _ _ (unlinked_pushFront s b m.snd a m.fst x hi' hu')
  | unlink w x =>
    cases w with
    | fst => exact unlinked_unlink s a m.fst b m.snd x hi hu hc
    | snd => exact unlinked_symm _ _ _ (unlinked_unlink s b m.snd a m.fst x hi' hu' hc)
  | reset w => exact hc.elim
  | moveAppend src dst x =>
    have hx : (s.lists (sel a b src)).m_headp = some x := hc
    cases src with
    | fst =>
      cases dst with
      | fst =>
        simp only [sel] at hx
        simp only [Call.exec, Call.track, sel, if_true]
        rw [moveAppend_same s a x hx]
        exact hu
      | snd => exact unlinked_moveAppend s a m.fst b m.snd x hi hu hx
    | snd =>
      cases dst with
      | fst => exact unlinked_symm _ _ _ (unlinked_moveAppend s b m.snd a m.fst x hi' hu' hx)
      | snd =>
        simp only [sel] at hx
        simp only [Call.exec, Call.track, sel, if_true]
        rw [moveAppend_same s b x hx]
        exact hu

theorem runCalls_twoLists (a b : ListId) (s : State) (m : Members) (cs : List Call)
    (hi : TwoLists s a m.fst b m.snd) (hc : AllAllowed a b s m cs) :
    TwoLists (runCalls a b s cs) a (trackCalls m cs).fst b (trackCalls m cs).snd := by
  induction cs generalizing s m with
  | nil => exact hi
  | cons c cs ih => exact ih _ _ (step_twoLists a b s m c hi hc.1) hc.2

theorem runCalls_roles (a b : ListId) (s : State) (m : Members) (cs : List Call)
    (hi : TwoLists s a m.fst b m.snd) (hu : Unlinked s m.fst m.snd)
    (hc : AllInRole a b s m cs) :
    TwoLists (runCalls a b s cs) a (trackCalls m cs).fst b (trackCalls m cs).snd ∧
    Unlinked (runCalls a b s cs) (trackCalls m cs).fst (trackCalls m cs).snd := by
  induction cs generalizing s m with
  | nil => exact ⟨hi, hu⟩
  | cons c cs ih =>
    exact ih _ _ (step_twoLists a b s m c hi (inRole_allowed a b s m c hi hc.1))
      (step_unlinked a b s m c hi hu hc.1) hc.2

theorem wf_empty_iff (s : State) (h : ListId) (L : List Obj) (hwf : WF s h L) :
    ((s.lists h).m_headp = none ↔ (s.lists h).m_tailp = none) ∧
    ((s.lists h).empty = true ↔ L = []) := by
  obtain ⟨_, hh, ht, _⟩ := hwf
  unfold V3List.empty
  rw [hh, ht]
  cases L with
  | nil => simp
  | cons x r =>
    rw [List.getLast?_eq_getLast _ (List.cons_ne_nil x r)]
    simp

/-! ## Claims on two headers -/

/-- C11: in every state reached from two empty headers by in-contract pushBack,
pushFront, unlink, reset and successful moveAppend calls, each header is
well-formed with its tracked member sequence (which the forward traversal
returns), has head = nullptr if and only if tail = nullptr, and empty() is true
if and only if the header has no members. -/
theorem header_emptiness_invariant (a b : ListId) (s0 : State) (cs : List Call)
    (hab : a ≠ b)
    (ha : (s0.lists a).m_headp = none ∧ (s0.lists a).m_tailp = none)
    (hb : (s0.lists b).m_headp = none ∧ (s0.lists b).m_tailp = none)
    (hc : AllAllowed a b s0 { fst := [], snd := [] } cs) (w : Which) :
    (((runCalls a b s0 cs).lists (sel a b w)).m_headp = none ↔
      ((runCalls a b s0 cs).lists (sel a b w)).m_tailp = none) ∧
    (((runCalls a b s0 cs).lists (sel a b w)).empty = true ↔
      (trackCalls { fst := [], snd := [] } cs).get w = []) ∧
    WF (runCalls a b s0 cs) (sel a b w) ((trackCalls { fst := [], snd := [] } cs).get w) ∧
    (∀ fuel, ((trackCalls { fst := [], snd := [] } cs).get w).length ≤ fuel →
      forward (runCalls a b s0 cs) fuel ((runCalls a b s0 cs).lists (sel a b w)).begin
        = some ((trackCalls { fst := [], snd := [] } cs).get w)) := by
  have h0 : TwoLists s0 a [] b [] :=
    ⟨hab, (wf_nil_iff s0 a).mpr ha, (wf_nil_iff s0 b).mpr hb, fun y hy => by simp at hy⟩
  have hi := runCalls_twoLists a b s0 { fst := [], snd := [] } cs h0 hc
  have hwf : WF (runCalls a b s0 cs) (sel a b w)
      ((trackCalls { fst := [], snd := [] } cs).get w) := by
    cases w with
    | fst => exact hi.2.1
    | snd => exact hi.2.2.1
  obtain ⟨h1, h2⟩ := wf_empty_iff _ _ _ hwf
  refine ⟨h1, h2, hwf, ?_⟩
  intro fuel hf
  obtain ⟨_, hh, _, hch⟩ := (wf_iff_chain _ _ _).mp hwf
  unfold V3List.begin
  rw [hh]
  exact forward_chain _ _ none fuel hch hf

theorem header_emptiness_invariant_witness :
    AllAllowed 0 1 emptyState { fst := [], snd := [] }
      [Call.pushBack Which.fst 1, Call.pushBack Which.fst 2, Call.pushFront Which.snd 3,
       Call.reset Which.snd, Call.moveAppend Which.fst Which.snd 1,
       Call.unlink Which.snd 1, Call.pushBack Which.fst 3] ∧
    (((runCalls 0 1 emptyState
      [Call.pushBack Which.fst 1, Call.pushBack Which.fst 2, Call.pushFront Which.snd 3,
       Call.reset Which.snd, Call.moveAppend Which.fst Which.snd 1,
       Call.unlink Which.snd 1, Call.pushBack Which.fst 3]).lists
        (sel 0 1 Which.snd)).m_headp = none ↔
     ((runCalls 0 1 emptyState
      [Call.pushBack Which.fst 1, Call.pushBack Which.fst 2, Call.pushFront Which.snd 3,
       Call.reset Which.snd, Call.moveAppend Which.fst Which.snd 1,
       Call.unlink Which.snd 1, Call.pushBack Which.fst 3]).lists
        (sel 0 1 Which.snd)).m_tailp = none) :=
  ⟨by decide,
   (header_emptiness_invariant 0 1 emptyState
      [Call.pushBack Which.fst 1, Call.pushBack Which.fst 2, Call.pushFront Which.snd 3,
       Call.reset Which.snd, Call.moveAppend Which.fst Which.snd 1,
       Call.unlink Which.snd 1, Call.pushBack Which.fst 3]
      (by decide) ⟨rfl, rfl⟩ ⟨rfl, rfl⟩ (by decide) Which.snd).1⟩

/-- C12: starting from two empty headers with every object having
next = prev = nullptr, after any sequence of pushBack/pushFront of an object in
neither list, unlink of an object from the header it is a member of, and
moveAppend between the headers with self the source head (reset excluded), both
lists are well-formed, no object is a member of both, and every object is
either a member of exactly one list or a member of neither with
next = prev = nullptr. -/
theorem link_role_state_machine (a b : ListId) (s0 : State) (cs : List Call)
    (hab : a ≠ b)
    (ha : (s0.lists a).m_headp = none ∧ (s0.lists a).m_tailp = none)
    (hb : (s0.lists b).m_headp = none ∧ (s0.lists b).m_tailp = none)
    (hents : ∀ x, (s0.ents x).m_nextp = none ∧ (s0.ents x).m_prevp = none)
    (hc : AllInRole a b s0 { fst := [], snd := [] } cs) :
    WF (runCalls a b s0 cs) a (trackCalls { fst := [], snd := [] } cs).fst ∧
    WF (runCalls a b s0 cs) b (trackCalls { fst := [], snd := [] } cs).snd ∧
    (∀ x, ¬ (x ∈ (trackCalls { fst := [], snd := [] } cs).fst ∧
             x ∈ (trackCalls { fst := [], snd := [] } cs).snd)) ∧
    (∀ x,
      (x ∈ (trackCalls { fst := [], snd := [] } cs).fst ∧
        x ∉ (trackCalls { fst := [], snd := [] } cs).snd) ∨
      (x ∈ (trackCalls { fst := [], snd := [] } cs).snd ∧
        x ∉ (trackCalls { fst := [], snd := [] } cs).fst) ∨
      (x ∉ (trackCalls { fst := [], snd := [] } cs).fst ∧
        x ∉ (trackCalls { fst := [], snd := [] } cs).snd ∧
        ((runCalls a b s0 cs).ents x).m_nextp = none ∧
        ((runCalls a b s0 cs).ents x).m_prevp = none)) := by
  have h0 : TwoLists s0 a [] b [] :=
    ⟨hab, (wf_nil_iff s0 a).mpr ha, (wf_nil_iff s0 b).mpr hb, fun y hy => by simp at hy⟩
  have hu0 : Unlinked s0 [] [] := fun y _ _ => hents y
  obtain ⟨hi, hu⟩ := runCalls_roles a b s0 { fst := [], snd := [] } cs h0 hu0 hc
  obtain ⟨_, hwa, hwb, hd⟩ := hi
  refine ⟨hwa, hwb, fun x hx => hd x hx.1 hx.2, ?_⟩
  intro x
  by_cases h1 : x ∈ (trackCalls { fst := [], snd := [] } cs).fst
  · exact Or.inl ⟨h1, hd x h1⟩
  · by_cases h2 : x ∈ (trackCalls { fst := [], snd := [] } cs).snd
    · exact Or.inr (Or.inl ⟨h2, h1⟩)
    · exact Or.inr (Or.inr ⟨h1, h2, hu x h1 h2⟩)

theorem link_role_state_machine_witness :
    AllInRole 0 1 emptyState { fst := [], snd := [] }
      [Call.pushBack Which.fst 1, Call.pushFront Which.fst 2, Call.pushBack Which.snd 3,
       Call.moveAppend Which.fst Which.snd 2, Call.unlink Which.snd 1] ∧
    WF (runCalls 0 1 emptyState
      [Call.pushBack Which.fst 1, Call.pushFront Which.fst 2, Call.pushBack Which.snd 3,
       Call.moveAppend Which.fst Which.snd 2, Call.unlink Which.snd 1]) 1
      (trackCalls { fst := [], snd := [] }
        [Call.pushBack Which.fst 1, Call.pushFront Which.fst 2, Call.pushBack Which.snd 3,
         Call.moveAppend Which.fst Which.snd 2, Call.unlink Which.snd 1]).snd :=
  ⟨by decide,
   (link_role_state_machine 0 1 emptyState
      [Call.pushBack Which.fst 1, Call.pushFront Which.fst 2, Call.pushBack Which.snd 3,
       Call.moveAppend Which.fst Which.snd 2, Call.unlink Which.snd 1]
      (by decide) ⟨rfl, rfl⟩ ⟨rfl, rfl⟩ (fun _ => ⟨rfl, rfl⟩) (by decide)).2.1⟩

end V3ListModel
